import Mathlib

/-!
Verification of the audio-pipeline repository's core components:
the multi-factor confidence engine (`scripts/audio_pipeline.py`,
`scripts/2_confidence_scoring.py`) and the two-pass PII redaction engine
(`scripts/audio_pipeline.py`, `scripts/3_pii_redaction.py`).

Python floats are modelled by `RVal` (a rational together with the IEEE
special values `nan`, `inf`, `-inf`); text is modelled as `List Char`;
the regular-expression matcher of the four fixed PII patterns is embedded
as a backtracking matcher over token lists that mirrors `re.finditer`
semantics for those patterns.
-/

/-- Confidence level as computed by `multi_factor_confidence`. -/
inductive Level
  | HIGH
  | MEDIUM
  | LOW
deriving DecidableEq, Repr

/-- Python float values: NaN, plus/minus infinity, or a finite value
(modelled exactly as a rational). -/
inductive RVal
  | nan
  | inf
  | ninf
  | fin (q : ℚ)
deriving DecidableEq, Repr

namespace RVal

/-- Python `a > b` on floats: any comparison with NaN is false. -/
def rgt : RVal → RVal → Bool
  | nan, _ => false
  | _, nan => false
  | inf, inf => false
  | inf, _ => true
  | ninf, _ => false
  | fin _, inf => false
  | fin _, ninf => true
  | fin a, fin b => decide (b < a)

/-- Python `a < b` on floats. -/
def rlt (a b : RVal) : Bool := rgt b a

/-- Python `a <= b` on floats: any comparison with NaN is false. -/
def rle : RVal → RVal → Bool
  | nan, _ => false
  | _, nan => false
  | ninf, _ => true
  | _, inf => true
  | inf, _ => false
  | fin _, ninf => false
  | fin a, fin b => decide (a ≤ b)

/-- IEEE addition. -/
def radd : RVal → RVal → RVal
  | nan, _ => nan
  | _, nan => nan
  | inf, ninf => nan
  | inf, _ => inf
  | ninf, inf => nan
  | ninf, _ => ninf
  | fin _, inf => inf
  | fin _, ninf => ninf
  | fin a, fin b => fin (a + b)

/-- IEEE negation. -/
def rneg : RVal → RVal
  | nan => nan
  | inf => ninf
  | ninf => inf
  | fin a => fin (-a)

/-- IEEE subtraction. -/
def rsub (a b : RVal) : RVal := radd a (rneg b)

/-- IEEE multiplication. -/
def rmul : RVal → RVal → RVal
  | nan, _ => nan
  | _, nan => nan
  | inf, inf => inf
  | inf, ninf => ninf
  | ninf, inf => ninf
  | ninf, ninf => inf
  | inf, fin b => if 0 < b then inf else if b < 0 then ninf else nan
  | ninf, fin b => if 0 < b then ninf else if b < 0 then inf else nan
  | fin a, inf => if 0 < a then inf else if a < 0 then ninf else nan
  | fin a, ninf => if 0 < a then ninf else if a < 0 then inf else nan
  | fin a, fin b => fin (a * b)

/-- IEEE division (numpy semantics: a finite nonzero value divided by zero
gives a signed infinity, `0/0` gives NaN). -/
def rdiv : RVal → RVal → RVal
  | nan, _ => nan
  | _, nan => nan
  | inf, inf => nan
  | inf, ninf => nan
  | ninf, inf => nan
  | ninf, ninf => nan
  | inf, fin b => if b < 0 then ninf else inf
  | ninf, fin b => if b < 0 then inf else ninf
  | fin _, inf => fin 0
  | fin _, ninf => fin 0
  | fin a, fin b =>
    if b = 0 then (if a = 0 then nan else if 0 < a then inf else ninf)
    else fin (a / b)

end RVal

open RVal

/-- Python `max(x, y)`: keeps the first argument, replaces it when the
second compares strictly greater (so NaN in the second slot is kept out,
NaN in the first slot is kept). -/
def pymax (a b : RVal) : RVal := if rgt b a then b else a

/-- Python `min(x, y)`. -/
def pymin (a b : RVal) : RVal := if rlt b a then b else a

/-- Sum of a list of float values (`np.sum`). -/
def rsum (l : List RVal) : RVal := l.foldl radd (fin 0)

/-- The mean of a list of float values; `np.mean` of an empty list is NaN. -/
def npMean (l : List RVal) : RVal :=
  if l.isEmpty then nan else rdiv (rsum l) (fin l.length)

/-- One transcript word as used by the confidence engine: only its
API-reported confidence is consumed. -/
structure WordInfo where
  confidence : RVal
deriving DecidableEq, Repr

/-- Source `calculate_word_perplexity` (`audio_pipeline.py` line 45,
`2_confidence_scoring.py` line 28): inverse of the mean word confidence,
infinity when the mean is not positive. -/
def calculate_word_perplexity (words : List WordInfo) : RVal :=
  let avg_conf := npMean (words.map (·.confidence))
  if rgt avg_conf (fin 0) then rdiv (fin 1) avg_conf else RVal.inf

/-- The SNR normalization `min(max((snr - 10) / 20, 0), 1)` used by
`multi_factor_confidence` in both source files. -/
def snr_normalized (snr : RVal) : RVal :=
  pymin (pymax (rdiv (rsub snr (fin 10)) (fin 20)) (fin 0)) (fin 1)

/-- The perplexity normalization `max(1 - (perplexity - 1), 0)` used by
`multi_factor_confidence` in both source files. -/
def perplexity_normalized (perplexity : RVal) : RVal :=
  pymax (rsub (fin 1) (rsub perplexity (fin 1))) (fin 0)

/-- The level thresholds shared by both source files:
`HIGH if combined > 0.85 else MEDIUM if combined > 0.7 else LOW`. -/
def getLevel (combined : RVal) : Level :=
  if rgt combined (fin (85/100)) then Level.HIGH
  else if rgt combined (fin (7/10)) then Level.MEDIUM
  else Level.LOW

/-- Source `multi_factor_confidence` of `audio_pipeline.py` (lines 50-60).
The SNR is computed from the audio file by the external collaborator
`calculate_snr` and is passed here as an input.  Note the code sets
`api_conf = np.mean([w.confidence for w in words])`. -/
def multi_factor_confidence (snr : RVal) (words : List WordInfo) : RVal × Level :=
  let perplexity := calculate_word_perplexity words
  let api_conf := npMean (words.map (·.confidence))
  let combined := radd (radd (rmul (fin (5/10)) api_conf)
    (rmul (fin (3/10)) (snr_normalized snr))) (rmul (fin (2/10)) (perplexity_normalized perplexity))
  (combined, getLevel combined)

/-- Source `multi_factor_confidence` of `2_confidence_scoring.py`
(lines 42-111).  There `api_confidence` is the utterance-level confidence
reported by the speech API (`response.results[0].alternatives[0].confidence`),
an input distinct from the per-word confidences. -/
def multi_factor_confidence_scoring (api_confidence snr : RVal) (words : List WordInfo) :
    RVal × Level :=
  let perplexity := calculate_word_perplexity words
  let combined := radd (radd (rmul (fin (5/10)) api_confidence)
    (rmul (fin (3/10)) (snr_normalized snr))) (rmul (fin (2/10)) (perplexity_normalized perplexity))
  (combined, getLevel combined)

/-! ## The text layer: Python strings, `str.replace`, and the fixed regex patterns

Text is `List Char`.  The four PII regular expressions of
`redact_pii_regex` are embedded as token lists interpreted by a
backtracking matcher with Python `re` semantics (leftmost match, greedy
quantifiers, `\b` word boundaries); all quantifiers in these patterns
apply to single-character classes, which the token form captures exactly. -/

/-- Python `\w` (ASCII range, the only characters these transcripts use). -/
def isWordChar (c : Char) : Bool := c.isAlpha || c.isDigit || c = '_'

/-- Python `\s` (ASCII range). -/
def pyIsSpace (c : Char) : Bool :=
  c = ' ' || c = '\t' || c = '\n' || c = '\r' || c = '\x0b' || c = '\x0c'

/-- One token of a linear regular expression: a literal character, a
single-character class repeated between `mn` and `mx` times (greedy;
`none` means unbounded), or a word boundary `\b`. -/
inductive Tok
  | lit (c : Char)
  | cls (f : Char → Bool) (mn : Nat) (mx : Option Nat)
  | wb

/-- Word-boundary test between the previous character (if any) and the
next character (if any). -/
def wbOk (prev next : Option Char) : Bool :=
  (match prev with | none => false | some c => isWordChar c) !=
  (match next with | none => false | some c => isWordChar c)

/-- Length of the maximal run of characters satisfying `f` at the front. -/
def countRun (f : Char → Bool) : List Char → Nat
  | [] => 0
  | c :: rest => if f c then countRun f rest + 1 else 0

/-- Candidate consumption counts for a greedy class, largest first. -/
def clsCands (mn : Nat) (mx : Option Nat) (run : Nat) : List Nat :=
  let hi := match mx with | none => run | some m => min m run
  (List.range (hi + 1 - mn)).map (fun d => hi - d)

/-- Backtracking matcher: given the tokens, the character preceding the
current position, and the remaining text, returns the remaining text
after the first (preference-ordered) successful match, or `none`. -/
def matchToks : List Tok → Option Char → List Char → Option (List Char)
  | [], _, rest => some rest
  | Tok.lit c :: ts, _, rest =>
    match rest with
    | [] => none
    | d :: rest' => if d = c then matchToks ts (some d) rest' else none
  | Tok.wb :: ts, prev, rest =>
    if wbOk prev rest.head? then matchToks ts prev rest else none
  | Tok.cls f mn mx :: ts, prev, rest =>
    (clsCands mn mx (countRun f rest)).findSome? (fun k =>
      matchToks ts (if k = 0 then prev else rest[k-1]?) (rest.drop k))

/-- A match span: `[s, t)` offsets into the scanned text. -/
structure PMatch where
  s : Nat
  t : Nat
deriving DecidableEq, Repr

/-- Scanner loop of `re.finditer`: try each position left to right,
emit non-overlapping matches, resume after each match. -/
def finditerGo (toks : List Tok) (text : List Char) : Nat → Nat → List PMatch
  | 0, _ => []
  | Nat.succ fuel, i =>
    if i > text.length then []
    else
      match matchToks toks (if i = 0 then none else text[i-1]?) (text.drop i) with
      | none => finditerGo toks text fuel (i+1)
      | some r =>
        let len := (text.drop i).length - r.length
        if len = 0 then finditerGo toks text fuel (i+1)
        else ⟨i, i + len⟩ :: finditerGo toks text fuel (i + len)

/-- `re.finditer` over the whole text. -/
def finditer (toks : List Tok) (text : List Char) : List PMatch :=
  finditerGo toks text (text.length + 1) 0

/-- Digits `\d` (ASCII). -/
def isDigitC (c : Char) : Bool := c.isDigit

/-- Class `[\s-]` of the credit-card pattern. -/
def sepSH (c : Char) : Bool := pyIsSpace c || c = '-'

/-- Class `[-\s]` of the SSN pattern. -/
def sepHS (c : Char) : Bool := c = '-' || pyIsSpace c

/-- Class `[-.\s]` of the phone pattern. -/
def sepPho (c : Char) : Bool := c = '-' || c = '.' || pyIsSpace c

/-- Class `[A-Za-z0-9._%+-]` of the email local part. -/
def emailLocal (c : Char) : Bool :=
  c.isAlpha || c.isDigit || c = '.' || c = '_' || c = '%' || c = '+' || c = '-'

/-- Class `[A-Za-z0-9.-]` of the email domain part. -/
def emailDomain (c : Char) : Bool := c.isAlpha || c.isDigit || c = '.' || c = '-'

/-- Class `[A-Z|a-z]` of the email top-level-domain part (the source
pattern literally includes `|` inside the class). -/
def emailTld (c : Char) : Bool := c.isUpper || c = '|' || c.isLower

/-- Pattern `\b\d{4}[\s-]?\d{4}[\s-]?\d{4}[\s-]?\d{4}\b`. -/
def ccToks : List Tok :=
  [.wb, .cls isDigitC 4 (some 4), .cls sepSH 0 (some 1), .cls isDigitC 4 (some 4),
   .cls sepSH 0 (some 1), .cls isDigitC 4 (some 4), .cls sepSH 0 (some 1),
   .cls isDigitC 4 (some 4), .wb]

/-- Pattern `\b\d{3}[-\s]?\d{2}[-\s]?\d{4}\b`. -/
def ssnToks : List Tok :=
  [.wb, .cls isDigitC 3 (some 3), .cls sepHS 0 (some 1), .cls isDigitC 2 (some 2),
   .cls sepHS 0 (some 1), .cls isDigitC 4 (some 4), .wb]

/-- Pattern `\b\d{3}[-.\s]?\d{3}[-.\s]?\d{4}\b`. -/
def phoneToks : List Tok :=
  [.wb, .cls isDigitC 3 (some 3), .cls sepPho 0 (some 1), .cls isDigitC 3 (some 3),
   .cls sepPho 0 (some 1), .cls isDigitC 4 (some 4), .wb]

/-- Pattern `\b[A-Za-z0-9._%+-]+@[A-Za-z0-9.-]+\.[A-Z|a-z]{2,}\b`. -/
def emailToks : List Tok :=
  [.wb, .cls emailLocal 1 none, .lit '@', .cls emailDomain 1 none, .lit '.',
   .cls emailTld 2 none, .wb]

/-- The ordered pattern dictionary of `redact_pii_regex`. -/
def patterns : List (String × List Tok) :=
  [("CREDIT_CARD", ccToks), ("SSN", ssnToks), ("PHONE", phoneToks), ("EMAIL", emailToks)]

/-- The slice `text[a:b]` of a Python string. -/
def sliceL (text : List Char) (a b : Nat) : List Char := (text.drop a).take (b - a)

/-- The literal placeholder `[REDACTED_<TAG>]`. -/
def phFor (tag : String) : List Char := ("[REDACTED_" ++ tag ++ "]").data

/-- Fuel-indexed body of Python `str.replace`: scan left to right and
replace every non-overlapping occurrence of `old` by `new`.  The fuel
bounds the recursion; `replaceAll` supplies enough for the whole scan. -/
def replaceAllF (old new : List Char) : Nat → List Char → List Char
  | 0, s => s
  | Nat.succ fuel, s =>
    match s with
    | [] => []
    | c :: rest =>
      if !old.isEmpty && old.isPrefixOf (c :: rest) then
        new ++ replaceAllF old new fuel ((c :: rest).drop old.length)
      else c :: replaceAllF old new fuel rest

/-- Python `s.replace(old, new)` (for nonempty `old`, as always here). -/
def replaceAll (old new s : List Char) : List Char := replaceAllF old new s.length s

/-- One entry of the redaction ledger: the dicts
`{'type': t, 'original': o, 'position': (s, t)}` built by both passes. -/
structure Entry where
  tag : String
  original : List Char
  s : Nat
  t : Nat
deriving DecidableEq, Repr

/-- Source `redact_pii_regex` (`audio_pipeline.py` lines 63-77,
`3_pii_redaction.py` lines 11-35): for each pattern category in order,
for each match found in the ORIGINAL text, replace every occurrence of
the matched substring in the working text by the placeholder and append
a ledger entry. -/
def redact_pii_regex (text : List Char) : List Char × List Entry :=
  patterns.foldl (fun acc tp =>
    (finditer tp.2 text).foldl (fun acc2 m =>
      (replaceAll (sliceL text m.s m.t) (phFor tp.1) acc2.1,
       acc2.2 ++ [⟨tp.1, sliceL text m.s m.t, m.s, m.t⟩])) acc) (text, [])

/-- spaCy entity labels, reduced to the two retained kinds and a
catch-all for every other label. -/
inductive ELabel
  | PERSON
  | DATE
  | OTHER
deriving DecidableEq, Repr

/-- The `ent.label_` string. -/
def labelStr : ELabel → String
  | .PERSON => "PERSON"
  | .DATE => "DATE"
  | .OTHER => "OTHER"

/-- One spaCy entity span: label plus `start_char`/`end_char` offsets
into the text the model was run on; `ent.text` is the corresponding
slice of that text. -/
structure Ent where
  label : ELabel
  s : Nat
  t : Nat
deriving DecidableEq, Repr

/-- Insert into a start-offset-descending list, after all entries with a
start at least as large (this reproduces the stable descending order of
Python `sorted(ents, key=lambda e: e.start_char, reverse=True)`). -/
def insDesc (x : Ent) : List Ent → List Ent
  | [] => [x]
  | y :: ys => if x.s ≤ y.s then y :: insDesc x ys else x :: y :: ys

/-- Stable sort by `start_char` descending. -/
def sortByStartDesc (l : List Ent) : List Ent := l.foldl (fun acc x => insDesc x acc) []

/-- Source `redact_pii_ner` (`audio_pipeline.py` lines 79-87,
`3_pii_redaction.py` lines 37-57): sort the model's entity spans by
`start_char` descending, and for each PERSON or DATE span splice the
placeholder over `redacted[:start] + ph + redacted[end:]`, appending a
ledger entry.  `ents` is the output of the external NLP model on `text`. -/
def redact_pii_ner (ents : List Ent) (text : List Char) : List Char × List Entry :=
  (sortByStartDesc ents).foldl (fun acc e =>
    if e.label = ELabel.PERSON ∨ e.label = ELabel.DATE then
      (acc.1.take e.s ++ phFor (labelStr e.label) ++ acc.1.drop e.t,
       acc.2 ++ [⟨labelStr e.label, sliceL text e.s e.t, e.s, e.t⟩])
    else acc) (text, [])

/-- Source `redact_pii` (`audio_pipeline.py` lines 89-92): pattern pass
over the original text, entity pass over the intermediate text, ledger
is pattern entries then entity entries.  `nlpEnts` abstracts the loaded
spaCy model: it returns the entity spans for the text it is given. -/
def redact_pii (nlpEnts : List Char → List Ent) (text : List Char) : List Char × List Entry :=
  let r1 := redact_pii_regex text
  let r2 := redact_pii_ner (nlpEnts r1.1) r1.1
  (r2.1, r1.2 ++ r2.2)

/-! ## Auxiliary definitions used to state and settle the claims -/

/-- All matches of one pattern category as ledger entries, in the order
`re.finditer` produces them. -/
def catEntries (tp : String × List Tok) (text : List Char) : List Entry :=
  (finditer tp.2 text).map (fun m => ⟨tp.1, sliceL text m.s m.t, m.s, m.t⟩)

/-- All pattern-pass ledger entries, in detection order (category-major,
matches of each category in scan order). -/
def patSteps (text : List Char) : List Entry :=
  (patterns.map (fun tp => catEntries tp text)).flatten

/-- Replay of the pattern pass's textual effect: one value-based
`str.replace` per detected match, in detection order. -/
def foldSteps (steps : List Entry) (t0 : List Char) : List Char :=
  steps.foldl (fun acc e => replaceAll e.original (phFor e.tag) acc) t0

/-- In-place splice of an entry's placeholder over its span. -/
def spliceAt (t : List Char) (e : Entry) : List Char :=
  t.take e.s ++ phFor e.tag ++ t.drop e.t

/-- Insertion into a start-offset-descending entry list, after all
entries with a start at least as large. -/
def insEntryDesc (x : Entry) : List Entry → List Entry
  | [] => [x]
  | y :: ys => if x.s ≤ y.s then y :: insEntryDesc x ys else x :: y :: ys

/-- Stable sort of ledger entries by start offset, descending. -/
def sortEntriesDesc (l : List Entry) : List Entry :=
  l.foldl (fun acc x => insEntryDesc x acc) []

/-- Modelled from the spec (§4.3 step 2, policy (b)): apply all pattern
spans detected against the original snapshot by start-offset-descending
in-place replacement.  This is the rule the spec asserts for the pattern
pass; it is compared against what `redact_pii_regex` actually does. -/
def redactPatternsSpecDesc (text : List Char) : List Char :=
  (sortEntriesDesc (patSteps text)).foldl spliceAt text

/-- The textual effect of the entity pass on an already-sorted span
list: `(redact_pii_ner ents text).1 = nerApply (sortByStartDesc ents) text`. -/
def nerApply (es : List Ent) (t : List Char) : List Char :=
  es.foldl (fun acc e =>
    if e.label = ELabel.PERSON ∨ e.label = ELabel.DATE then
      acc.take e.s ++ phFor (labelStr e.label) ++ acc.drop e.t
    else acc) t

/-- Tags emitted by the pattern pass. -/
def patternTags : List String := ["CREDIT_CARD", "SSN", "PHONE", "EMAIL"]

/-- Tags emitted by the entity pass. -/
def entityTags : List String := ["PERSON", "DATE"]

/-- Characters every pattern match must contain at least one of (a digit
or `@`); no placeholder contains any such character. -/
def sensitiveC (c : Char) : Bool := c.isDigit || c = '@'

/-- Holds when some token of the pattern can consume `c`. -/
def tokAllows (toks : List Tok) (c : Char) : Prop :=
  ∃ t ∈ toks, match t with
    | Tok.lit d => c = d
    | Tok.cls f _ _ => f c = true
    | Tok.wb => False

/-- A mandatory token: every successful match consumes at least one
character through it, and all characters it can consume satisfy `P`. -/
def MandTok (P : Char → Bool) (toks : List Tok) : Prop :=
  ∃ t ∈ toks, match t with
    | Tok.lit d => P d = true
    | Tok.cls f mn _ => 1 ≤ mn ∧ ∀ c, f c = true → P c = true
    | Tok.wb => False

/-- Whether the entity pass retains a span (`ent.label_ in ['PERSON', 'DATE']`). -/
def keepEnt (e : Ent) : Bool := decide (e.label = ELabel.PERSON ∨ e.label = ELabel.DATE)

/-- The ledger entry the entity pass records for a span. -/
def entryOfEnt (text : List Char) (e : Ent) : Entry :=
  ⟨labelStr e.label, sliceL text e.s e.t, e.s, e.t⟩

/-- Shape of every placeholder: an opening bracket, an inner part free of
sensitive characters, and a closing bracket. -/
def PhOK (new : List Char) : Prop :=
  ∃ mm, new = '[' :: (mm ++ [']']) ∧ ∀ c ∈ mm, sensitiveC c = false

/-- Shape of every pattern-matched substring: nonempty, bracket-free, and
containing at least one sensitive character. -/
def CleanStr (o : List Char) : Prop :=
  o ≠ [] ∧ '[' ∉ o ∧ ']' ∉ o ∧ ∃ c ∈ o, sensitiveC c = true

/-- Clamp to `[0, 1]`: the spec's `clamp(x, 0, 1)`. -/
def clampR (x : RVal) : RVal := pymin (pymax x (fin 0)) (fin 1)

/-- The SNR normalization on finite values, at the rational level. -/
def snrQ (s : ℚ) : ℚ := min (max ((s - 10) / 20) 0) 1

/-- The perplexity normalization as a function of a finite mean word
confidence, at the rational level. -/
def pnormQ (v : ℚ) : ℚ := if 0 < v then max (1 - (1 / v - 1)) 0 else 0

/-- Mean of a list of rationals. -/
def avgQ (cs : List ℚ) : ℚ := cs.sum / cs.length

/-- Word list carrying the given finite confidences. -/
def csWords (cs : List ℚ) : List WordInfo := cs.map (fun q => ⟨fin q⟩)

/-! ## Basic evaluation lemmas for the float model -/

@[simp] theorem rgt_fin_fin (a b : ℚ) : rgt (fin a) (fin b) = decide (b < a) := rfl

@[simp] theorem rle_fin_fin (a b : ℚ) : rle (fin a) (fin b) = decide (a ≤ b) := rfl

@[simp] theorem rlt_fin_fin (a b : ℚ) : rlt (fin a) (fin b) = decide (a < b) := rfl

@[simp] theorem radd_fin_fin (a b : ℚ) : radd (fin a) (fin b) = fin (a + b) := rfl

@[simp] theorem rsub_fin_fin (a b : ℚ) : rsub (fin a) (fin b) = fin (a - b) := by
  show fin (a + -b) = fin (a - b)
  rw [← sub_eq_add_neg]

@[simp] theorem rmul_fin_fin (a b : ℚ) : rmul (fin a) (fin b) = fin (a * b) := rfl

theorem rdiv_fin_fin (a b : ℚ) (hb : b ≠ 0) : rdiv (fin a) (fin b) = fin (a / b) := by
  simp [rdiv, hb]

@[simp] theorem pymax_fin_fin (a b : ℚ) : pymax (fin a) (fin b) = fin (max a b) := by
  by_cases h : a < b
  · simp [pymax, h, max_eq_right h.le]
  · simp [pymax, h, max_eq_left (le_of_not_lt h)]

@[simp] theorem pymin_fin_fin (a b : ℚ) : pymin (fin a) (fin b) = fin (min a b) := by
  by_cases h : b < a
  · simp [pymin, rlt, h, min_eq_right h.le]
  · simp [pymin, rlt, h, min_eq_left (le_of_not_lt h)]

theorem rsum_map_fin (cs : List ℚ) : ∀ a : ℚ, (cs.map fin).foldl radd (fin a) = fin (a + cs.sum) := by
  induction cs with
  | nil => intro a; simp
  | cons c rest ih =>
    intro a
    simp only [List.map_cons, List.foldl_cons, radd_fin_fin, List.sum_cons, ih (a + c)]
    ring_nf

theorem npMean_map_fin (cs : List ℚ) (h : cs ≠ []) :
    npMean (cs.map fin) = fin (avgQ cs) := by
  have hne : (cs.map fin).isEmpty = false := by
    cases cs with
    | nil => exact absurd rfl h
    | cons a l => rfl
  have hlen : ((cs.length : ℚ)) ≠ 0 := by
    cases cs with
    | nil => exact absurd rfl h
    | cons a l =>
      simp only [List.length_cons, Nat.cast_add, Nat.cast_one]
      intro hc
      have h0 : (0:ℚ) ≤ (l.length : ℚ) := Nat.cast_nonneg _
      linarith
  rw [npMean, hne]
  simp only [Bool.false_eq_true, if_false, rsum, rsum_map_fin cs 0, List.length_map]
  rw [rdiv_fin_fin _ _ hlen, zero_add]
  rfl

example : multi_factor_confidence (fin 25) [⟨fin (9/10)⟩, ⟨fin (8/10)⟩] =
    (fin (277/340), Level.MEDIUM) := by
  simp only [multi_factor_confidence, calculate_word_perplexity, snr_normalized,
    perplexity_normalized, getLevel, npMean, rsum, List.map, List.foldl, List.isEmpty,
    List.length, radd_fin_fin, rsub_fin_fin, rmul_fin_fin, rgt_fin_fin, rlt_fin_fin,
    pymax_fin_fin, pymin_fin_fin, rdiv]
  norm_num

example : finditer phoneToks "555-123-4567 x555-123-4567y".data = [⟨0, 12⟩] := by decide
example : finditer emailToks "a@b.cd 555-123-4567".data = [⟨0, 6⟩] := by decide
example : finditer phoneToks "a@b.cd 555-123-4567".data = [⟨7, 19⟩] := by decide
example : finditer ssnToks "a@b.cd 555-123-4567".data = [] := by decide
example : finditer emailToks "555-123-4567@ab.cd".data = [⟨0, 18⟩] := by decide
example : finditer phoneToks "555-123-4567@ab.cd".data = [⟨0, 12⟩] := by decide
example : finditer ssnToks "123-45-6789".data = [⟨0, 11⟩] := by decide
example : replaceAll "555-123-4567".data (phFor "PHONE") "555-123-4567 x555-123-4567y".data =
    "[REDACTED_PHONE] x[REDACTED_PHONE]y".data := by decide
example : redact_pii_regex "555-123-4567 x555-123-4567y".data =
    ("[REDACTED_PHONE] x[REDACTED_PHONE]y".data,
     [⟨"PHONE", "555-123-4567".data, 0, 12⟩]) := by decide
example : redact_pii_regex "555-123-4567@ab.cd".data =
    ("[REDACTED_PHONE]@ab.cd".data,
     [⟨"PHONE", "555-123-4567".data, 0, 12⟩,
      ⟨"EMAIL", "555-123-4567@ab.cd".data, 0, 18⟩]) := by decide
example : redact_pii (fun _ => [⟨ELabel.PERSON, 0, 4⟩]) "John x John".data =
    ("[REDACTED_PERSON] x John".data,
     [⟨"PERSON", "John".data, 0, 4⟩]) := by decide
example : redact_pii (fun _ => [⟨ELabel.PERSON, 5, 9⟩, ⟨ELabel.DATE, 13, 19⟩])
    "Call John on Monday".data =
    ("Call [REDACTED_PERSON] on [REDACTED_DATE]".data,
     [⟨"DATE", "Monday".data, 13, 19⟩, ⟨"PERSON", "John".data, 5, 9⟩]) := by decide

/-! ## Evaluation of the confidence engine on finite inputs -/

theorem snr_normalized_fin (s : ℚ) : snr_normalized (fin s) = fin (snrQ s) := by
  unfold snr_normalized snrQ
  rw [show rsub (fin s) (fin 10) = fin (s - 10) from rsub_fin_fin s 10,
    rdiv_fin_fin _ _ (by norm_num : (20:ℚ) ≠ 0), pymax_fin_fin, pymin_fin_fin]

theorem confs_csWords (cs : List ℚ) : (csWords cs).map (·.confidence) = cs.map fin := by
  unfold csWords
  rw [List.map_map]
  rfl

theorem perplexity_csWords (cs : List ℚ) (h : cs ≠ []) :
    calculate_word_perplexity (csWords cs) =
      (if 0 < avgQ cs then fin (1 / avgQ cs) else RVal.inf) := by
  unfold calculate_word_perplexity
  rw [confs_csWords, npMean_map_fin cs h]
  by_cases hv : 0 < avgQ cs
  · rw [if_pos hv]
    simp only [rgt_fin_fin, decide_eq_true_eq, hv, if_true]
    exact rdiv_fin_fin 1 _ (ne_of_gt hv)
  · rw [if_neg hv]
    simp only [rgt_fin_fin, decide_eq_true_eq, hv, if_false]

theorem perplexity_normalized_csWords (cs : List ℚ) (h : cs ≠ []) :
    perplexity_normalized (calculate_word_perplexity (csWords cs)) = fin (pnormQ (avgQ cs)) := by
  rw [perplexity_csWords cs h]
  by_cases hv : 0 < avgQ cs
  · rw [if_pos hv]
    unfold perplexity_normalized pnormQ
    rw [rsub_fin_fin, rsub_fin_fin, pymax_fin_fin, if_pos hv]
  · rw [if_neg hv]
    unfold perplexity_normalized pnormQ
    rw [if_neg hv]
    rfl

theorem scoring_combined (a s : RVal) (ws : List WordInfo) :
    (multi_factor_confidence_scoring a s ws).1 =
      radd (radd (rmul (fin (5/10)) a) (rmul (fin (3/10)) (snr_normalized s)))
        (rmul (fin (2/10)) (perplexity_normalized (calculate_word_perplexity ws))) := rfl

theorem scoring_eval (a s : ℚ) (cs : List ℚ) (h : cs ≠ []) :
    (multi_factor_confidence_scoring (fin a) (fin s) (csWords cs)).1 =
      fin (5/10 * a + 3/10 * snrQ s + 2/10 * pnormQ (avgQ cs)) := by
  rw [scoring_combined, snr_normalized_fin, perplexity_normalized_csWords cs h]
  simp only [rmul_fin_fin, radd_fin_fin]

/-! ## Rational-level facts about the normalizations -/

theorem snrQ_nonneg (s : ℚ) : 0 ≤ snrQ s :=
  le_min (le_max_right _ _) zero_le_one

theorem snrQ_le_one (s : ℚ) : snrQ s ≤ 1 := min_le_right _ _

theorem snrQ_mono {s₁ s₂ : ℚ} (h : s₁ ≤ s₂) : snrQ s₁ ≤ snrQ s₂ := by
  unfold snrQ
  have hd : (s₁ - 10) / 20 ≤ (s₂ - 10) / 20 := by
    apply div_le_div_of_nonneg_right (by linarith) (by norm_num)
  exact min_le_min (max_le_max hd le_rfl) le_rfl

theorem pnormQ_nonneg (v : ℚ) : 0 ≤ pnormQ v := by
  unfold pnormQ
  by_cases hv : 0 < v
  · rw [if_pos hv]; exact le_max_right _ _
  · rw [if_neg hv]

theorem pnormQ_le_one {v : ℚ} (hv1 : v ≤ 1) : pnormQ v ≤ 1 := by
  unfold pnormQ
  by_cases hv : 0 < v
  · rw [if_pos hv]
    apply max_le _ zero_le_one
    have : 1 ≤ 1 / v := by
      rw [le_div_iff₀ hv]
      linarith
    linarith
  · rw [if_neg hv]; exact zero_le_one

theorem pnormQ_mono {v₁ v₂ : ℚ} (h : v₁ ≤ v₂) : pnormQ v₁ ≤ pnormQ v₂ := by
  by_cases hv : 0 < v₁
  · have hv2 : 0 < v₂ := lt_of_lt_of_le hv h
    unfold pnormQ
    rw [if_pos hv, if_pos hv2]
    have : 1 / v₂ ≤ 1 / v₁ := one_div_le_one_div_of_le hv h
    exact max_le_max (by linarith) le_rfl
  · calc pnormQ v₁ = 0 := by unfold pnormQ; rw [if_neg hv]
    _ ≤ pnormQ v₂ := pnormQ_nonneg v₂

theorem avgQ_nonneg {cs : List ℚ} (hb : ∀ q ∈ cs, 0 ≤ q ∧ q ≤ 1) : 0 ≤ avgQ cs := by
  unfold avgQ
  apply div_nonneg
  · exact List.sum_nonneg (fun q hq => (hb q hq).1)
  · exact Nat.cast_nonneg _

theorem avgQ_le_one {cs : List ℚ} (h : cs ≠ []) (hb : ∀ q ∈ cs, 0 ≤ q ∧ q ≤ 1) :
    avgQ cs ≤ 1 := by
  unfold avgQ
  have hlen : (0:ℚ) < cs.length := by
    cases cs with
    | nil => exact absurd rfl h
    | cons a l =>
      simp only [List.length_cons, Nat.cast_add, Nat.cast_one]
      have h0 : (0:ℚ) ≤ (l.length : ℚ) := Nat.cast_nonneg _
      linarith
  rw [div_le_one hlen]
  calc cs.sum ≤ cs.length • (1:ℚ) := List.sum_le_card_nsmul cs 1 (fun q hq => (hb q hq).2)
  _ = cs.length := by rw [nsmul_eq_mul, mul_one]

/-! ## Structural projections of the two engines -/

theorem pipeline_combined (snr : RVal) (words : List WordInfo) :
    (multi_factor_confidence snr words).1 =
      radd (radd (rmul (fin (5/10)) (npMean (words.map (·.confidence))))
        (rmul (fin (3/10)) (snr_normalized snr)))
        (rmul (fin (2/10)) (perplexity_normalized (calculate_word_perplexity words))) := rfl

theorem pipeline_level (snr : RVal) (words : List WordInfo) :
    (multi_factor_confidence snr words).2 = getLevel ((multi_factor_confidence snr words).1) := rfl

theorem radd_nan_left (x : RVal) : radd nan x = nan := by cases x <;> rfl

/-! ## Claims about the confidence engine -/

/-- C3: the claim states that an empty word list makes the engine fail
explicitly with an `InsufficientData` error.  The code does no such
thing: `np.mean([])` is NaN, so `multi_factor_confidence` silently
returns a NaN combined score together with level LOW, for every SNR
value.  This theorem evaluates the code on the failing input. -/
theorem c3_empty_words_silent_nan (snr : RVal) :
    multi_factor_confidence snr [] = (RVal.nan, Level.LOW) := by
  have hc : (multi_factor_confidence snr []).1 = RVal.nan := by
    rw [pipeline_combined]
    rw [show rmul (fin (5/10)) (npMean (([] : List WordInfo).map (·.confidence))) = nan from rfl]
    rw [radd_nan_left, radd_nan_left]
  have hl : (multi_factor_confidence snr []).2 = Level.LOW := by
    rw [pipeline_level, hc]
    rfl
  exact Prod.ext hc hl

/-- C8: the level thresholds are strict: HIGH exactly above 0.85, MEDIUM
exactly above 0.70 up to and including 0.85, LOW at or below 0.70; in
particular a combined score of exactly 0.85 yields MEDIUM and exactly
0.70 yields LOW. -/
theorem c8_level_thresholds_strict (q : ℚ) :
    (getLevel (fin q) = Level.HIGH ↔ 85/100 < q) ∧
    (getLevel (fin q) = Level.MEDIUM ↔ (7/10 < q ∧ q ≤ 85/100)) ∧
    (getLevel (fin q) = Level.LOW ↔ q ≤ 7/10) ∧
    getLevel (fin (85/100)) = Level.MEDIUM ∧
    getLevel (fin (7/10)) = Level.LOW := by
  have key : ∀ r : ℚ, getLevel (fin r) =
      (if 85/100 < r then Level.HIGH else if 7/10 < r then Level.MEDIUM else Level.LOW) := by
    intro r
    unfold getLevel
    simp only [rgt_fin_fin, decide_eq_true_eq]
  refine ⟨?_, ?_, ?_, ?_, ?_⟩
  · rw [key]
    split_ifs with h1 h2
    · exact iff_of_true rfl h1
    · exact iff_of_false (by decide) h1
    · exact iff_of_false (by decide) h1
  · rw [key]
    split_ifs with h1 h2
    · exact iff_of_false (by decide) (fun hc => absurd hc.2 (not_le.mpr h1))
    · exact iff_of_true rfl ⟨h2, le_of_not_lt h1⟩
    · exact iff_of_false (by decide) (fun hc => h2 hc.1)
  · rw [key]
    split_ifs with h1 h2
    · exact iff_of_false (by decide) (fun hc => by linarith)
    · exact iff_of_false (by decide) (fun hc => absurd hc (not_le.mpr h2))
    · exact iff_of_true rfl (le_of_not_lt h2)
  · rw [key]
    norm_num
  · rw [key]
    norm_num

/-- C6 counterexample: with word confidences `[1, 0]` and an
API-reported utterance confidence of 1, the pipeline's
`multi_factor_confidence` does not produce the combined score that the
taken-as-is rule (the formula of `2_confidence_scoring.py`, fed the
API-reported value) produces: the pipeline feeds the 50%-weight slot
with the word-confidence mean 0.5 and yields 0.55 instead of 0.8. -/
theorem c6_counterexample :
    (multi_factor_confidence (fin 30) (csWords [1, 0])).1 = fin (55/100) ∧
    (multi_factor_confidence_scoring (fin 1) (fin 30) (csWords [1, 0])).1 = fin (80/100) ∧
    (multi_factor_confidence (fin 30) (csWords [1, 0])).1 ≠
      (multi_factor_confidence_scoring (fin 1) (fin 30) (csWords [1, 0])).1 := by
  have h2 : (multi_factor_confidence_scoring (fin 1) (fin 30) (csWords [1, 0])).1 =
      fin (80/100) := by
    rw [scoring_eval 1 30 [1, 0] (by simp)]
    norm_num [snrQ, pnormQ, avgQ]
  have h1 : (multi_factor_confidence (fin 30) (csWords [1, 0])).1 = fin (55/100) := by
    have he : (multi_factor_confidence (fin 30) (csWords [1, 0])).1 =
        (multi_factor_confidence_scoring (npMean ((csWords [1, 0]).map (·.confidence)))
          (fin 30) (csWords [1, 0])).1 := rfl
    rw [he, confs_csWords, npMean_map_fin [1, 0] (by simp),
      scoring_eval _ 30 [1, 0] (by simp)]
    norm_num [snrQ, pnormQ, avgQ]
  refine ⟨h1, h2, ?_⟩
  rw [h1, h2]
  intro hc
  rw [RVal.fin.injEq] at hc
  norm_num at hc

/-- C6 amended: in `audio_pipeline.py` the 50%-weight component of the
combined score is the mean of the per-word confidences, not a separately
API-reported utterance confidence: the pipeline engine coincides with
the scoring-script engine exactly when the latter's `api_confidence`
input is instantiated with `np.mean` of the word confidences. -/
theorem c6_asr_component_is_word_mean (snr : RVal) (words : List WordInfo) :
    multi_factor_confidence snr words =
      multi_factor_confidence_scoring (npMean (words.map (·.confidence))) snr words := rfl

/-- C5: with word confidences in `[0,1]`, an API confidence in `[0,1]`
and finite SNR, the combined score of the scoring engine is monotone in
the API confidence, in the SNR, and in the mean word confidence, and it
always lies in `[0,1]`. -/
theorem c5_combined_monotone_bounded
    (a₁ a₂ s₁ s₂ : ℚ) (cs₁ cs₂ : List ℚ)
    (h₁ : cs₁ ≠ []) (h₂ : cs₂ ≠ [])
    (hb₁ : ∀ q ∈ cs₁, 0 ≤ q ∧ q ≤ 1) (_hb₂ : ∀ q ∈ cs₂, 0 ≤ q ∧ q ≤ 1)
    (ha0 : 0 ≤ a₁) (ha1 : a₁ ≤ 1)
    (ha : a₁ ≤ a₂) (hs : s₁ ≤ s₂) (hv : avgQ cs₁ ≤ avgQ cs₂) :
    rle (multi_factor_confidence_scoring (fin a₁) (fin s₁) (csWords cs₁)).1
        (multi_factor_confidence_scoring (fin a₂) (fin s₁) (csWords cs₁)).1 = true ∧
    rle (multi_factor_confidence_scoring (fin a₁) (fin s₁) (csWords cs₁)).1
        (multi_factor_confidence_scoring (fin a₁) (fin s₂) (csWords cs₁)).1 = true ∧
    rle (multi_factor_confidence_scoring (fin a₁) (fin s₁) (csWords cs₁)).1
        (multi_factor_confidence_scoring (fin a₁) (fin s₁) (csWords cs₂)).1 = true ∧
    rle (fin 0) (multi_factor_confidence_scoring (fin a₁) (fin s₁) (csWords cs₁)).1 = true ∧
    rle (multi_factor_confidence_scoring (fin a₁) (fin s₁) (csWords cs₁)).1 (fin 1) = true := by
  rw [scoring_eval a₁ s₁ cs₁ h₁, scoring_eval a₂ s₁ cs₁ h₁, scoring_eval a₁ s₂ cs₁ h₁,
    scoring_eval a₁ s₁ cs₂ h₂]
  simp only [rle_fin_fin, decide_eq_true_eq]
  have hsn1 := snrQ_nonneg s₁
  have hsn2 := snrQ_le_one s₁
  have hsm := snrQ_mono hs
  have hpn1 := pnormQ_nonneg (avgQ cs₁)
  have hpn2 := pnormQ_le_one (avgQ_le_one h₁ hb₁)
  have hpm := pnormQ_mono hv
  refine ⟨by linarith, by linarith, by linarith, by linarith, by linarith⟩

/-- C5 witness: the monotonicity and bound conclusions at a concrete
instance (API confidence 1/2 against 3/4, SNR 15 dB against 20 dB, word
confidences `[2/5]` against `[3/5]`). -/
theorem c5_witness :
    rle (multi_factor_confidence_scoring (fin (1/2)) (fin 15) (csWords [2/5])).1
        (multi_factor_confidence_scoring (fin (3/4)) (fin 15) (csWords [2/5])).1 = true ∧
    rle (multi_factor_confidence_scoring (fin (1/2)) (fin 15) (csWords [2/5])).1
        (multi_factor_confidence_scoring (fin (1/2)) (fin 20) (csWords [2/5])).1 = true ∧
    rle (multi_factor_confidence_scoring (fin (1/2)) (fin 15) (csWords [2/5])).1
        (multi_factor_confidence_scoring (fin (1/2)) (fin 15) (csWords [3/5])).1 = true ∧
    rle (fin 0) (multi_factor_confidence_scoring (fin (1/2)) (fin 15) (csWords [2/5])).1 = true ∧
    rle (multi_factor_confidence_scoring (fin (1/2)) (fin 15) (csWords [2/5])).1 (fin 1) = true :=
  c5_combined_monotone_bounded (1/2) (3/4) 15 20 [2/5] [3/5]
    (by simp) (by simp)
    (by intro q hq; rw [List.mem_singleton] at hq; subst hq; norm_num)
    (by intro q hq; rw [List.mem_singleton] at hq; subst hq; norm_num)
    (by norm_num) (by norm_num) (by norm_num) (by norm_num)
    (by norm_num [avgQ])

/-- C7: for a nonempty word list with confidences in `[0,1]`, the
perplexity is `+infinity` when the mean confidence is 0 and `1/mean`
otherwise; the code's normalization `max(1 - (perplexity - 1), 0)`
coincides with the spec's `clamp(1 - (perplexity - 1), 0, 1)`; a mean of
1 gives normalized perplexity 1; a perplexity of at least 2 gives 0; and
the normalized perplexity always lies in `[0,1]`. -/
theorem c7_perplexity_formula
    (cs : List ℚ) (h : cs ≠ []) (hb : ∀ q ∈ cs, 0 ≤ q ∧ q ≤ 1) :
    (avgQ cs = 0 → calculate_word_perplexity (csWords cs) = RVal.inf) ∧
    (0 < avgQ cs → calculate_word_perplexity (csWords cs) = fin (1 / avgQ cs)) ∧
    perplexity_normalized (calculate_word_perplexity (csWords cs)) =
      clampR (rsub (fin 1) (rsub (calculate_word_perplexity (csWords cs)) (fin 1))) ∧
    (avgQ cs = 1 → perplexity_normalized (calculate_word_perplexity (csWords cs)) = fin 1) ∧
    (rle (fin 2) (calculate_word_perplexity (csWords cs)) = true →
      perplexity_normalized (calculate_word_perplexity (csWords cs)) = fin 0) ∧
    rle (fin 0) (perplexity_normalized (calculate_word_perplexity (csWords cs))) = true ∧
    rle (perplexity_normalized (calculate_word_perplexity (csWords cs))) (fin 1) = true := by
  have hper := perplexity_csWords cs h
  have hnorm := perplexity_normalized_csWords cs h
  have hv1 : avgQ cs ≤ 1 := avgQ_le_one h hb
  refine ⟨?_, ?_, ?_, ?_, ?_, ?_, ?_⟩
  · intro h0
    rw [hper, if_neg (by rw [h0]; exact lt_irrefl 0)]
  · intro h0
    rw [hper, if_pos h0]
  · rw [hnorm, hper]
    by_cases h0 : 0 < avgQ cs
    · rw [if_pos h0]
      unfold clampR pnormQ
      rw [if_pos h0, rsub_fin_fin, rsub_fin_fin, pymax_fin_fin, pymin_fin_fin]
      have hge : 1 ≤ 1 / avgQ cs := by
        rw [le_div_iff₀ h0]
        linarith
      exact congrArg fin (min_eq_left (max_le (by linarith) zero_le_one)).symm
    · rw [if_neg h0]
      have hrhs : clampR (rsub (fin 1) (rsub RVal.inf (fin 1))) = fin 0 := rfl
      rw [hrhs]
      unfold pnormQ
      rw [if_neg h0]
  · intro h1
    rw [hnorm]
    unfold pnormQ
    rw [h1, if_pos one_pos]
    norm_num
  · intro h2
    rw [hper] at h2
    rw [hnorm]
    unfold pnormQ
    by_cases h0 : 0 < avgQ cs
    · rw [if_pos h0] at h2
      rw [rle_fin_fin, decide_eq_true_eq] at h2
      rw [if_pos h0, RVal.fin.injEq]
      exact max_eq_right (by linarith)
    · rw [if_neg h0]
  · rw [hnorm, rle_fin_fin, decide_eq_true_eq]
    exact pnormQ_nonneg _
  · rw [hnorm, rle_fin_fin, decide_eq_true_eq]
    exact pnormQ_le_one hv1

/-- C7 witness: the conclusions at word confidences `[1/2]` (mean 1/2,
perplexity 2, normalized perplexity 0). -/
theorem c7_witness :
    (avgQ [1/2] = 0 → calculate_word_perplexity (csWords [1/2]) = RVal.inf) ∧
    (0 < avgQ [1/2] → calculate_word_perplexity (csWords [1/2]) = fin (1 / avgQ [1/2])) ∧
    perplexity_normalized (calculate_word_perplexity (csWords [1/2])) =
      clampR (rsub (fin 1) (rsub (calculate_word_perplexity (csWords [1/2])) (fin 1))) ∧
    (avgQ [1/2] = 1 → perplexity_normalized (calculate_word_perplexity (csWords [1/2])) = fin 1) ∧
    (rle (fin 2) (calculate_word_perplexity (csWords [1/2])) = true →
      perplexity_normalized (calculate_word_perplexity (csWords [1/2])) = fin 0) ∧
    rle (fin 0) (perplexity_normalized (calculate_word_perplexity (csWords [1/2]))) = true ∧
    rle (perplexity_normalized (calculate_word_perplexity (csWords [1/2]))) (fin 1) = true :=
  c7_perplexity_formula [1/2] (by simp)
    (by intro q hq; rw [List.mem_singleton] at hq; subst hq; norm_num)

/-! ## Structure of the pattern pass -/

theorem regexInner (text : List Char) (tag : String) :
    ∀ (ms : List PMatch) (acc : List Char × List Entry),
      ms.foldl (fun acc2 m =>
        (replaceAll (sliceL text m.s m.t) (phFor tag) acc2.1,
         acc2.2 ++ [⟨tag, sliceL text m.s m.t, m.s, m.t⟩])) acc =
      (foldSteps (ms.map (fun m => ⟨tag, sliceL text m.s m.t, m.s, m.t⟩)) acc.1,
       acc.2 ++ ms.map (fun m => ⟨tag, sliceL text m.s m.t, m.s, m.t⟩)) := by
  intro ms
  induction ms with
  | nil => intro acc; simp [foldSteps]
  | cons m rest ih =>
    intro acc
    rw [List.foldl_cons, ih]
    simp [foldSteps, List.append_assoc]

theorem redact_pii_regex_eq (text : List Char) :
    redact_pii_regex text = (foldSteps (patSteps text) text, patSteps text) := by
  have outer : ∀ (tps : List (String × List Tok)) (acc : List Char × List Entry),
      tps.foldl (fun acc tp =>
        (finditer tp.2 text).foldl (fun acc2 m =>
          (replaceAll (sliceL text m.s m.t) (phFor tp.1) acc2.1,
           acc2.2 ++ [⟨tp.1, sliceL text m.s m.t, m.s, m.t⟩])) acc) acc =
      (foldSteps ((tps.map (fun tp => catEntries tp text)).flatten) acc.1,
       acc.2 ++ (tps.map (fun tp => catEntries tp text)).flatten) := by
    intro tps
    induction tps with
    | nil => intro acc; simp [foldSteps]
    | cons tp rest ih =>
      intro acc
      rw [List.foldl_cons, regexInner text tp.1 (finditer tp.2 text) acc, ih]
      simp [foldSteps, catEntries, List.foldl_append, List.append_assoc]
  have h := outer patterns (text, [])
  simp only [List.nil_append] at h
  exact h

/-! ## Order produced by the entity-pass sort -/

theorem mem_insDesc {z x : Ent} {l : List Ent} (h : z ∈ insDesc x l) : z = x ∨ z ∈ l := by
  induction l with
  | nil =>
    simp only [insDesc, List.mem_singleton] at h
    exact Or.inl h
  | cons y ys ih =>
    simp only [insDesc] at h
    by_cases hc : x.s ≤ y.s
    · rw [if_pos hc] at h
      rcases List.mem_cons.mp h with h1 | h1
      · exact Or.inr (List.mem_cons.mpr (Or.inl h1))
      · rcases ih h1 with h2 | h2
        · exact Or.inl h2
        · exact Or.inr (List.mem_cons.mpr (Or.inr h2))
    · rw [if_neg hc] at h
      rcases List.mem_cons.mp h with h1 | h1
      · exact Or.inl h1
      · exact Or.inr h1

theorem insDesc_pairwise {x : Ent} {l : List Ent}
    (h : l.Pairwise (fun a b => b.s ≤ a.s)) :
    (insDesc x l).Pairwise (fun a b => b.s ≤ a.s) := by
  induction l with
  | nil => simp [insDesc]
  | cons y ys ih =>
    rcases List.pairwise_cons.mp h with ⟨hy, hys⟩
    by_cases hc : x.s ≤ y.s
    · simp only [insDesc, if_pos hc]
      apply List.pairwise_cons.mpr
      refine ⟨?_, ih hys⟩
      intro z hz
      rcases mem_insDesc hz with rfl | hz2
      · exact hc
      · exact hy z hz2
    · simp only [insDesc, if_neg hc]
      apply List.pairwise_cons.mpr
      refine ⟨?_, h⟩
      intro z hz
      rcases List.mem_cons.mp hz with rfl | hz2
      · exact le_of_lt (lt_of_not_le hc)
      · exact le_trans (hy z hz2) (le_of_lt (lt_of_not_le hc))

theorem sortByStartDesc_sorted (l : List Ent) :
    (sortByStartDesc l).Pairwise (fun a b => b.s ≤ a.s) := by
  have gen : ∀ (xs : List Ent) (acc : List Ent),
      acc.Pairwise (fun a b => b.s ≤ a.s) →
      (xs.foldl (fun acc x => insDesc x acc) acc).Pairwise (fun a b => b.s ≤ a.s) := by
    intro xs
    induction xs with
    | nil => intro acc h; exact h
    | cons x rest ih =>
      intro acc h
      exact ih (insDesc x acc) (insDesc_pairwise h)
  exact gen l [] List.Pairwise.nil

/-! ## Claims C1 and C10: how the pattern pass applies its spans -/

/-- C1 counterexample: the pattern pass does not apply its spans by
descending-start-offset in-place replacement.  On
`"555-123-4567 x555-123-4567y"` the phone pattern matches only at
offsets (0,12) (the second occurrence is not preceded by a word
boundary), yet the code's value-based `str.replace` rewrites both
occurrences, while the spec's descending-offset in-place rule rewrites
only the matched span. -/
theorem c1_counterexample :
    (redact_pii_regex "555-123-4567 x555-123-4567y".data).1 ≠
      redactPatternsSpecDesc "555-123-4567 x555-123-4567y".data ∧
    (redact_pii_regex "555-123-4567 x555-123-4567y".data).1 =
      "[REDACTED_PHONE] x[REDACTED_PHONE]y".data ∧
    redactPatternsSpecDesc "555-123-4567 x555-123-4567y".data =
      "[REDACTED_PHONE] x555-123-4567y".data := by
  refine ⟨by decide, by decide, by decide⟩

/-- C1 amended: only the entity pass applies spans in descending
start-offset order (the list the engine folds over is sorted
descending); the pattern pass instead performs one value-based
`str.replace` per match, in detection order, with no sorting: its result
is exactly the fold of value replacements over the detected steps. -/
theorem c1_descending_only_entity_pass :
    (∀ es : List Ent, (sortByStartDesc es).Pairwise (fun a b => b.s ≤ a.s)) ∧
    (∀ text : List Char,
      redact_pii_regex text = (foldSteps (patSteps text) text, patSteps text)) :=
  ⟨sortByStartDesc_sorted, redact_pii_regex_eq⟩

/-- C10: the pattern pass replaces by value and ledgers by match.  On
`"555-123-4567 x555-123-4567y"` the single phone match (0,12) produces
one ledger entry but rewrites both occurrences of the matched substring,
including the one at offset 14 where the pattern itself does not match;
on `"555-123-4567@ab.cd"` the earlier PHONE replacement has already
removed the text of the later EMAIL match, whose `str.replace` is then a
no-op, yet the EMAIL ledger entry is still appended: ledger entries and
textual edits do not correspond one to one. -/
theorem c10_value_replace_and_ledger_mismatch :
    redact_pii_regex "555-123-4567 x555-123-4567y".data =
      ("[REDACTED_PHONE] x[REDACTED_PHONE]y".data,
       [⟨"PHONE", "555-123-4567".data, 0, 12⟩]) ∧
    redact_pii_regex "555-123-4567@ab.cd".data =
      ("[REDACTED_PHONE]@ab.cd".data,
       [⟨"PHONE", "555-123-4567".data, 0, 12⟩,
        ⟨"EMAIL", "555-123-4567@ab.cd".data, 0, 18⟩]) := by
  refine ⟨by decide, by decide⟩

/-! ## Structure of the entity pass -/

theorem nerFold_eq (text : List Char) :
    ∀ (es : List Ent) (acc : List Char × List Entry),
      es.foldl (fun acc e =>
        if e.label = ELabel.PERSON ∨ e.label = ELabel.DATE then
          (acc.1.take e.s ++ phFor (labelStr e.label) ++ acc.1.drop e.t,
           acc.2 ++ [⟨labelStr e.label, sliceL text e.s e.t, e.s, e.t⟩])
        else acc) acc =
      (nerApply es acc.1, acc.2 ++ (es.filter keepEnt).map (entryOfEnt text)) := by
  intro es
  induction es with
  | nil => intro acc; simp [nerApply]
  | cons e rest ih =>
    intro acc
    rw [List.foldl_cons]
    by_cases hk : e.label = ELabel.PERSON ∨ e.label = ELabel.DATE
    · rw [if_pos hk, ih]
      have hkb : keepEnt e = true := decide_eq_true hk
      simp [nerApply, List.foldl_cons, if_pos hk, hkb, entryOfEnt, List.append_assoc]
    · rw [if_neg hk, ih]
      have hkb : keepEnt e = false := decide_eq_false hk
      simp [nerApply, List.foldl_cons, if_neg hk, hkb]

theorem redact_pii_ner_eq (ents : List Ent) (text : List Char) :
    redact_pii_ner ents text =
      (nerApply (sortByStartDesc ents) text,
       ((sortByStartDesc ents).filter keepEnt).map (entryOfEnt text)) := by
  have h := nerFold_eq text (sortByStartDesc ents) (text, [])
  simp only [List.nil_append] at h
  exact h

theorem finditerGo_ascending (toks : List Tok) (text : List Char) :
    ∀ (fuel i : Nat),
      (finditerGo toks text fuel i).Pairwise (fun m1 m2 => m1.s < m2.s) ∧
      (∀ m ∈ finditerGo toks text fuel i, i ≤ m.s) := by
  intro fuel
  induction fuel with
  | zero => intro i; simp [finditerGo]
  | succ fuel ih =>
    intro i
    simp only [finditerGo]
    by_cases hgt : i > text.length
    · rw [if_pos hgt]; simp
    · rw [if_neg hgt]
      cases hm : matchToks toks (if i = 0 then none else text[i-1]?) (text.drop i) with
      | none =>
        refine ⟨(ih (i+1)).1, ?_⟩
        intro m hm2
        exact le_trans (Nat.le_succ i) ((ih (i+1)).2 m hm2)
      | some r =>
        simp only
        by_cases h0 : (text.drop i).length - r.length = 0
        · rw [if_pos h0]
          refine ⟨(ih (i+1)).1, ?_⟩
          intro m hm2
          exact le_trans (Nat.le_succ i) ((ih (i+1)).2 m hm2)
        · rw [if_neg h0]
          constructor
          · apply List.pairwise_cons.mpr
            refine ⟨?_, (ih (i + ((text.drop i).length - r.length))).1⟩
            intro m hm2
            have hb := (ih (i + ((text.drop i).length - r.length))).2 m hm2
            show i < m.s
            omega
          · intro m hm2
            rcases List.mem_cons.mp hm2 with rfl | hm3
            · exact le_refl _
            · have hb := (ih (i + ((text.drop i).length - r.length))).2 m hm3
              omega

theorem catEntries_ascending (tp : String × List Tok) (text : List Char) :
    (catEntries tp text).Pairwise (fun a b => a.s < b.s) := by
  unfold catEntries
  rw [List.pairwise_map]
  exact (finditerGo_ascending tp.2 text (text.length + 1) 0).1

theorem patSteps_tags (text : List Char) : ∀ e ∈ patSteps text, e.tag ∈ patternTags := by
  intro e he
  unfold patSteps at he
  rw [List.mem_flatten] at he
  rcases he with ⟨block, hb, heb⟩
  rw [List.mem_map] at hb
  rcases hb with ⟨tp, htp, rfl⟩
  unfold catEntries at heb
  rw [List.mem_map] at heb
  rcases heb with ⟨m, _, rfl⟩
  unfold patterns at htp
  simp only [List.mem_cons, List.not_mem_nil, or_false] at htp
  rcases htp with rfl | rfl | rfl | rfl <;> simp [patternTags]

theorem ner_tags (ents : List Ent) (text : List Char) :
    ∀ e ∈ (redact_pii_ner ents text).2, e.tag ∈ entityTags := by
  intro e he
  rw [redact_pii_ner_eq] at he
  rw [List.mem_map] at he
  rcases he with ⟨x, hx, rfl⟩
  have hk : keepEnt x = true := List.of_mem_filter hx
  unfold keepEnt at hk
  rw [decide_eq_true_eq] at hk
  rcases hk with h | h <;> simp [entryOfEnt, labelStr, h, entityTags]

theorem ner_ledger_desc (ents : List Ent) (text : List Char) :
    ((redact_pii_ner ents text).2).Pairwise (fun a b => b.s ≤ a.s) := by
  rw [redact_pii_ner_eq, List.pairwise_map]
  exact (sortByStartDesc_sorted ents).sublist (List.filter_sublist _)

/-! ## Claim C4: ledger ordering -/

/-- C4 counterexample: pattern-pass ledger entries are not in ascending
original-text offset order.  On `"a@b.cd 555-123-4567"` the categories
are scanned in priority order, so the PHONE entry (offsets 7-19)
precedes the EMAIL entry (offsets 0-6) in the ledger. -/
theorem c4_counterexample :
    (redact_pii_regex "a@b.cd 555-123-4567".data).2 =
      [⟨"PHONE", "555-123-4567".data, 7, 19⟩, ⟨"EMAIL", "a@b.cd".data, 0, 6⟩] ∧
    ¬ ((redact_pii_regex "a@b.cd 555-123-4567".data).2.Pairwise
        (fun a b : Entry => a.s ≤ b.s)) := by
  have hled : (redact_pii_regex "a@b.cd 555-123-4567".data).2 =
      [⟨"PHONE", "555-123-4567".data, 7, 19⟩, ⟨"EMAIL", "a@b.cd".data, 0, 6⟩] := by decide
  refine ⟨hled, ?_⟩
  intro hp
  rw [hled] at hp
  have h := (List.pairwise_cons.mp hp).1 ⟨"EMAIL", "a@b.cd".data, 0, 6⟩
    (List.mem_singleton_self _)
  exact absurd h (by decide)

/-- C4 amended: the ledger has the two-tier shape (all pattern entries,
then all entity entries), the pattern entries are in detection order
(category-major in the fixed priority order, ascending offsets only
within each category, not globally), and the entity entries are in
descending start-offset order. -/
theorem c4_ledger_two_tier :
    (∀ (nlpEnts : List Char → List Ent) (text : List Char),
      (redact_pii nlpEnts text).2 =
        (redact_pii_regex text).2 ++
          (redact_pii_ner (nlpEnts (redact_pii_regex text).1) (redact_pii_regex text).1).2) ∧
    (∀ text : List Char, ∀ e ∈ (redact_pii_regex text).2, e.tag ∈ patternTags) ∧
    (∀ (ents : List Ent) (text : List Char),
      ∀ e ∈ (redact_pii_ner ents text).2, e.tag ∈ entityTags) ∧
    (∀ (text : List Char) (tp : String × List Tok), tp ∈ patterns →
      (catEntries tp text).Pairwise (fun a b => a.s < b.s)) ∧
    (∀ (ents : List Ent) (text : List Char),
      ((redact_pii_ner ents text).2).Pairwise (fun a b => b.s ≤ a.s)) := by
  refine ⟨fun _ _ => rfl, ?_, ner_tags, fun text tp _ => catEntries_ascending tp text,
    ner_ledger_desc⟩
  intro text e he
  rw [redact_pii_regex_eq] at he
  exact patSteps_tags text e he

/-- C4 witness: instances of the amended conclusions at concrete inputs,
with every hypothesis discharged concretely. -/
theorem c4_witness :
    (⟨"PHONE", "555-123-4567".data, 7, 19⟩ : Entry).tag ∈ patternTags ∧
    (⟨"PERSON", "John".data, 0, 4⟩ : Entry).tag ∈ entityTags ∧
    (catEntries ("PHONE", phoneToks) "a@b.cd 555-123-4567".data).Pairwise
      (fun a b => a.s < b.s) := by
  refine ⟨?_, ?_, ?_⟩
  · exact c4_ledger_two_tier.2.1 "a@b.cd 555-123-4567".data
      ⟨"PHONE", "555-123-4567".data, 7, 19⟩ (by decide)
  · exact c4_ledger_two_tier.2.2.1 [⟨ELabel.PERSON, 0, 4⟩] "John x John".data
      ⟨"PERSON", "John".data, 0, 4⟩ (by decide)
  · exact c4_ledger_two_tier.2.2.2.1 "a@b.cd 555-123-4567".data ("PHONE", phoneToks)
      (List.mem_cons_of_mem _ (List.mem_cons_of_mem _ (List.mem_cons_self _ _)))

/-! ## Claim C9: offset safety of descending-offset replacement -/

/-- C9: for spans from one snapshot, listed in descending start order and
pairwise non-overlapping, with well-formed in-bounds offsets, the entity
pass's in-place replacement never finds a pending span's stored end
offset beyond the current text (for every prefix of processed spans, the
next span's end offset is at most the current length), and the final
length is the original length plus the sum of
`placeholder length - span length` over the applied (PERSON/DATE) spans. -/
theorem c9_offset_safety (es : List Ent) (t : List Char)
    (hpair : es.Pairwise (fun a b => b.t ≤ a.s))
    (hwf : ∀ e ∈ es, e.s ≤ e.t)
    (hbd : ∀ e ∈ es, e.t ≤ t.length) :
    ((nerApply es t).length : ℤ) = (t.length : ℤ) +
      ((es.filter keepEnt).map
        (fun e => ((phFor (labelStr e.label)).length : ℤ) - ((e.t : ℤ) - (e.s : ℤ)))).sum ∧
    (∀ (pre post : List Ent) (x : Ent), es = pre ++ x :: post →
      x.t ≤ (nerApply pre t).length) := by
  induction es generalizing t with
  | nil =>
    refine ⟨by simp [nerApply], ?_⟩
    intro pre post x hx
    exact absurd hx (by simp)
  | cons a rest ih =>
    have ha : a.s ≤ a.t := hwf a (List.mem_cons_self _ _)
    have hat : a.t ≤ t.length := hbd a (List.mem_cons_self _ _)
    rcases List.pairwise_cons.mp hpair with ⟨hhead, hrest⟩
    by_cases hk : a.label = ELabel.PERSON ∨ a.label = ELabel.DATE
    · have hkb : keepEnt a = true := decide_eq_true hk
      have hstep : nerApply (a :: rest) t =
          nerApply rest (t.take a.s ++ phFor (labelStr a.label) ++ t.drop a.t) := by
        simp only [nerApply, List.foldl_cons, if_pos hk]
      have hlen' : (t.take a.s ++ phFor (labelStr a.label) ++ t.drop a.t).length =
          a.s + (phFor (labelStr a.label)).length + (t.length - a.t) := by
        simp only [List.length_append, List.length_take, List.length_drop]
        omega
      have hbd' : ∀ e ∈ rest, e.t ≤ (t.take a.s ++ phFor (labelStr a.label) ++ t.drop a.t).length := by
        intro e he
        have h1 : e.t ≤ a.s := hhead e he
        omega
      have hwf' : ∀ e ∈ rest, e.s ≤ e.t := fun e he => hwf e (List.mem_cons_of_mem _ he)
      rcases ih (t.take a.s ++ phFor (labelStr a.label) ++ t.drop a.t) hrest hwf' hbd'
        with ⟨ihl, ihp⟩
      constructor
      · rw [hstep, ihl, List.filter_cons_of_pos hkb, List.map_cons, List.sum_cons, hlen']
        push_cast
        omega
      · intro pre post x hx
        cases pre with
        | nil =>
          rw [List.nil_append] at hx
          injection hx with h1 h2
          subst h1
          simpa [nerApply] using hat
        | cons p pre' =>
          rw [List.cons_append] at hx
          injection hx with h1 h2
          subst h1
          have hstep' : nerApply (a :: pre') t =
              nerApply pre' (t.take a.s ++ phFor (labelStr a.label) ++ t.drop a.t) := by
            simp only [nerApply, List.foldl_cons, if_pos hk]
          rw [hstep']
          exact ihp pre' post x h2
    · have hstep : nerApply (a :: rest) t = nerApply rest t := by
        simp only [nerApply, List.foldl_cons, if_neg hk]
      have hkb : keepEnt a = false := decide_eq_false hk
      rcases ih t hrest (fun e he => hwf e (List.mem_cons_of_mem _ he))
        (fun e he => hbd e (List.mem_cons_of_mem _ he)) with ⟨ihl, ihp⟩
      constructor
      · rw [hstep, ihl, List.filter_cons_of_neg (by rw [hkb]; exact Bool.false_ne_true)]
      · intro pre post x hx
        cases pre with
        | nil =>
          rw [List.nil_append] at hx
          injection hx with h1 h2
          subst h1
          simpa [nerApply] using hat
        | cons p pre' =>
          rw [List.cons_append] at hx
          injection hx with h1 h2
          subst h1
          have hstep' : nerApply (a :: pre') t = nerApply pre' t := by
            simp only [nerApply, List.foldl_cons, if_neg hk]
          rw [hstep']
          exact ihp pre' post x h2

/-- C9 witness: the offset-safety and length conclusions at the concrete
snapshot `"Call John on Monday"` with the two spans DATE (13,19) and
PERSON (5,9), listed descending and non-overlapping. -/
theorem c9_witness :
    ((nerApply [⟨ELabel.DATE, 13, 19⟩, ⟨ELabel.PERSON, 5, 9⟩] "Call John on Monday".data).length : ℤ) =
      ("Call John on Monday".data.length : ℤ) +
        ((([⟨ELabel.DATE, 13, 19⟩, ⟨ELabel.PERSON, 5, 9⟩] : List Ent).filter keepEnt).map
          (fun e => ((phFor (labelStr e.label)).length : ℤ) - ((e.t : ℤ) - (e.s : ℤ)))).sum ∧
    (∀ (pre post : List Ent) (x : Ent),
      ([⟨ELabel.DATE, 13, 19⟩, ⟨ELabel.PERSON, 5, 9⟩] : List Ent) = pre ++ x :: post →
      x.t ≤ (nerApply pre "Call John on Monday".data).length) :=
  c9_offset_safety [⟨ELabel.DATE, 13, 19⟩, ⟨ELabel.PERSON, 5, 9⟩] "Call John on Monday".data
    (by refine List.Pairwise.cons ?_ (List.Pairwise.cons ?_ List.Pairwise.nil) <;> simp)
    (by decide) (by decide)

/-! ## Occurrences across a placeholder splice -/

theorem take_infix_self (l : List Char) (n : Nat) : l.take n <:+: l := by
  have h1 : l.take n <+: l := List.take_prefix n l
  exact h1.isInfix

theorem slice_isInfix (l : List Char) (i n : Nat) : (l.drop i).take n <:+: l :=
  (take_infix_self (l.drop i) n).trans (l.drop_suffix i).isInfix

theorem slice_prefix_part (P Q : List Char) (i n : Nat) (h : i + n ≤ P.length) :
    ((P ++ Q).drop i).take n = (P.drop i).take n := by
  rw [List.drop_append_of_le_length (by omega : i ≤ P.length),
    List.take_append_of_le_length (by simp only [List.length_drop]; omega)]

theorem slice_suffix_part (P Q : List Char) (i n : Nat) (h : P.length ≤ i) :
    ((P ++ Q).drop i).take n = (Q.drop (i - P.length)).take n := by
  have h2 : (P ++ Q).drop i = Q.drop (i - P.length) := by
    conv_lhs => rw [show i = P.length + (i - P.length) from by omega]
    rw [List.drop_append]
  rw [h2]

theorem bracket_in_take {c : Char} {R : List Char} (n : Nat) (hn : 0 < n) :
    c ∈ (c :: R).take n := by
  rcases Nat.exists_eq_succ_of_ne_zero (by omega : n ≠ 0) with ⟨k, hk⟩
  rw [hk, List.take_succ_cons]
  exact List.mem_cons_self _ _

theorem infix_split3 {o A m B : List Char} (ho : o ≠ []) (hl : '[' ∉ o) (hr : ']' ∉ o)
    (h : o <:+: A ++ ('[' :: (m ++ [']'])) ++ B) : o <:+: A ∨ o <:+: m ∨ o <:+: B := by
  rcases h with ⟨u, v, huv⟩
  have hslice : o = (((A ++ ('[' :: (m ++ [']'])) ++ B)).drop u.length).take o.length := by
    rw [← huv, show u ++ o ++ v = u ++ (o ++ v) from by simp [List.append_assoc],
      List.drop_left, List.take_left]
  have hn : 0 < o.length := List.length_pos.mpr ho
  set S := A ++ ('[' :: (m ++ [']'])) ++ B with hS
  set i := u.length with hidef
  set n := o.length with hndef
  set a := A.length with hadef
  set b := A.length + 1 + m.length with hbdef
  have hS1 : S = A ++ ('[' :: (m ++ (']' :: B))) := by
    rw [hS]; simp [List.append_assoc]
  have hS2 : S = (A ++ ['[']) ++ (m ++ (']' :: B)) := by
    rw [hS]; simp [List.append_assoc]
  have hS3 : S = (A ++ '[' :: m) ++ (']' :: B) := by
    rw [hS]; simp [List.append_assoc]
  have hlen2 : (A ++ ['[']).length = a + 1 := by
    simp [hadef]
  have hlen3 : (A ++ '[' :: m).length = b := by
    simp [hbdef]
    omega
  have hlen4 : (A ++ ('[' :: (m ++ [']']))).length = b + 1 := by
    simp [hbdef]
    omega
  by_cases hc1 : i + n ≤ a
  · left
    rw [hslice, hS1, slice_prefix_part A ('[' :: (m ++ (']' :: B))) i n (by omega)]
    exact slice_isInfix A i n
  · by_cases hc2 : i ≤ a
    · exfalso
      apply hl
      have hdi : (A.drop i).length = a - i := by
        simp only [List.length_drop, hadef]
      rw [hslice, hS1, List.drop_append_of_le_length (by omega : i ≤ A.length),
        List.take_append_eq_append_take]
      refine List.mem_append_right _ ?_
      exact bracket_in_take _ (by omega)
    · by_cases hc3 : i + n ≤ b
      · right; left
        rw [hslice, hS2, slice_suffix_part (A ++ ['[']) (m ++ (']' :: B)) i n (by omega),
          hlen2, slice_prefix_part m (']' :: B) (i - (a + 1)) n (by omega)]
        exact slice_isInfix m _ n
      · by_cases hc4 : i ≤ b
        · exfalso
          apply hr
          have hdi : ((A ++ '[' :: m).drop i).length = b - i := by
            simp only [List.length_drop, hlen3]
          rw [hslice, hS3, List.drop_append_of_le_length (by omega : i ≤ (A ++ '[' :: m).length),
            List.take_append_eq_append_take]
          refine List.mem_append_right _ ?_
          exact bracket_in_take _ (by omega)
        · right; right
          have hS4 : S = (A ++ ('[' :: (m ++ [']']))) ++ B := by
            rw [hS]
          rw [hslice, hS4,
            slice_suffix_part (A ++ ('[' :: (m ++ [']']))) B i n (by omega)]
          exact slice_isInfix B _ n

/-! ## What `str.replace` can and cannot leave behind -/

theorem pfx_cons_elim {o : List Char} {a : Char} {t : List Char}
    (h : o <+: a :: t) (ho : o ≠ []) : ∃ o', o = a :: o' ∧ o' <+: t := by
  cases o with
  | nil => exact absurd rfl ho
  | cons c o' =>
    rcases h with ⟨r, hr⟩
    injection hr with h1 h2
    exact ⟨o', by rw [h1], ⟨r, h2⟩⟩

theorem pfx_cons_intro {o t : List Char} {a : Char} (h : o <+: t) : a :: o <+: a :: t := by
  rcases h with ⟨r, hr⟩
  exact ⟨r, by rw [List.cons_append, hr]⟩

theorem replaceAllF_succ_pos (old new : List Char) (fuel : Nat) (c : Char) (rest : List Char)
    (hc : (!old.isEmpty && old.isPrefixOf (c :: rest)) = true) :
    replaceAllF old new (fuel + 1) (c :: rest) =
      new ++ replaceAllF old new fuel ((c :: rest).drop old.length) := by
  simp only [replaceAllF, hc, if_true]

theorem replaceAllF_succ_neg (old new : List Char) (fuel : Nat) (c : Char) (rest : List Char)
    (hc : ¬ (!old.isEmpty && old.isPrefixOf (c :: rest)) = true) :
    replaceAllF old new (fuel + 1) (c :: rest) = c :: replaceAllF old new fuel rest := by
  simp only [replaceAllF, if_neg hc]

theorem replaceAllF_pfx_reflect (old new : List Char) (hph : ∃ mm, new = '[' :: mm) :
    ∀ (fuel : Nat) (s t : List Char), t ≠ [] → '[' ∉ t →
      t <+: replaceAllF old new fuel s → t <+: s := by
  intro fuel
  induction fuel with
  | zero => intro s t _ _ h; simpa [replaceAllF] using h
  | succ fuel ih =>
    intro s t ht hbr h
    cases s with
    | nil => simpa [replaceAllF] using h
    | cons c rest =>
      by_cases hc : (!old.isEmpty && old.isPrefixOf (c :: rest)) = true
      · rw [replaceAllF_succ_pos old new fuel c rest hc] at h
        rcases hph with ⟨mm, rfl⟩
        rcases pfx_cons_elim h ht with ⟨t', rfl, _⟩
        exact absurd (List.mem_cons_self _ _) hbr
      · rw [replaceAllF_succ_neg old new fuel c rest hc] at h
        rcases pfx_cons_elim h ht with ⟨t', rfl, ht'⟩
        by_cases ht'e : t' = []
        · subst ht'e
          exact ⟨rest, rfl⟩
        · exact pfx_cons_intro (ih rest t' ht'e (fun hm => hbr (List.mem_cons_of_mem _ hm)) ht')

theorem replaceAllF_infix_reflect (old new : List Char) (hph : PhOK new) :
    ∀ (fuel : Nat) (s o' : List Char), CleanStr o' →
      o' <:+: replaceAllF old new fuel s → o' <:+: s := by
  intro fuel
  induction fuel with
  | zero => intro s o' _ h; simpa [replaceAllF] using h
  | succ fuel ih =>
    intro s o' hcl h
    rcases hcl with ⟨hne, hbl, hbr, hsens⟩
    cases s with
    | nil => simpa [replaceAllF] using h
    | cons c rest =>
      by_cases hc : (!old.isEmpty && old.isPrefixOf (c :: rest)) = true
      · rw [replaceAllF_succ_pos old new fuel c rest hc] at h
        rcases hph with ⟨mm, hmm, hmchars⟩
        set R := replaceAllF old new fuel ((c :: rest).drop old.length) with hR
        rw [hmm] at h
        rcases infix_split3 hne hbl hbr (show o' <:+: [] ++ ('[' :: (mm ++ [']'])) ++ R from
          by simpa using h) with h2 | h2 | h2
        · exact absurd (List.eq_nil_of_infix_nil h2) hne
        · rcases hsens with ⟨ch, hch, hs⟩
          have := hmchars ch (h2.subset hch)
          rw [this] at hs
          exact absurd hs (by decide)
        · rw [hR] at h2
          have := ih ((c :: rest).drop old.length) o' ⟨hne, hbl, hbr, hsens⟩ h2
          exact this.trans ((c :: rest).drop_suffix old.length).isInfix
      · rw [replaceAllF_succ_neg old new fuel c rest hc] at h
        rcases List.infix_cons_iff.mp h with h2 | h2
        · rcases pfx_cons_elim h2 hne with ⟨t', rfl, ht'⟩
          by_cases ht'e : t' = []
          · subst ht'e
            exact List.IsPrefix.isInfix (show [c] <+: c :: rest from ⟨rest, rfl⟩)
          · have hph' : ∃ mm2, new = '[' :: mm2 := by
              rcases hph with ⟨mm, hmm, _⟩
              exact ⟨mm ++ [']'], hmm⟩
            have := replaceAllF_pfx_reflect old new hph' fuel rest t' ht'e
              (fun hm => hbl (List.mem_cons_of_mem _ hm)) ht'
            exact (pfx_cons_intro this).isInfix
        · have := ih rest o' ⟨hne, hbl, hbr, hsens⟩ h2
          exact List.infix_cons this

theorem replaceAllF_removes (o new : List Char) (hph : PhOK new) (hcl : CleanStr o) :
    ∀ (fuel : Nat) (s : List Char), s.length ≤ fuel → ¬ o <:+: replaceAllF o new fuel s := by
  intro fuel
  induction fuel with
  | zero =>
    intro s hs h
    have : s = [] := List.eq_nil_of_length_eq_zero (by omega)
    subst this
    simp only [replaceAllF] at h
    exact absurd (List.eq_nil_of_infix_nil h) hcl.1
  | succ fuel ih =>
    intro s hs h
    have holen : 0 < o.length := List.length_pos.mpr hcl.1
    cases s with
    | nil =>
      simp only [replaceAllF] at h
      exact absurd (List.eq_nil_of_infix_nil h) hcl.1
    | cons c rest =>
      rcases hcl with ⟨hne, hbl, hbr, hsens⟩
      by_cases hc : (!o.isEmpty && o.isPrefixOf (c :: rest)) = true
      · rw [replaceAllF_succ_pos o new fuel c rest hc] at h
        rcases hph with ⟨mm, hmm, hmchars⟩
        set R := replaceAllF o new fuel ((c :: rest).drop o.length) with hR
        rw [hmm] at h
        rcases infix_split3 hne hbl hbr (show o <:+: [] ++ ('[' :: (mm ++ [']'])) ++ R from
          by simpa using h) with h2 | h2 | h2
        · exact absurd (List.eq_nil_of_infix_nil h2) hne
        · rcases hsens with ⟨ch, hch, hsv⟩
          have := hmchars ch (h2.subset hch)
          rw [this] at hsv
          exact absurd hsv (by decide)
        · rw [hR] at h2
          refine ih ((c :: rest).drop o.length) ?_ h2
          simp only [List.length_drop, List.length_cons] at *
          omega
      · rw [replaceAllF_succ_neg o new fuel c rest hc] at h
        rcases List.infix_cons_iff.mp h with h2 | h2
        · rcases pfx_cons_elim h2 hne with ⟨t', hoe, ht'⟩
          have hto : o <+: c :: rest := by
            rw [hoe]
            by_cases ht'e : t' = []
            · subst ht'e
              exact ⟨rest, rfl⟩
            · have hph' : ∃ mm2, new = '[' :: mm2 := by
                rcases hph with ⟨mm, hmm, _⟩
                exact ⟨mm ++ [']'], hmm⟩
              refine pfx_cons_intro (replaceAllF_pfx_reflect o new hph' fuel rest t' ht'e ?_ ht')
              intro hm
              apply hbl
              rw [hoe]
              exact List.mem_cons_of_mem _ hm
          apply hc
          rw [Bool.and_eq_true]
          refine ⟨?_, List.isPrefixOf_iff_prefix.mpr hto⟩
          cases o with
          | nil => exact absurd rfl hne
          | cons _ _ => rfl
        · refine ih rest ?_ h2
          simp only [List.length_cons] at hs
          omega

theorem replaceAll_removes (o new s : List Char) (hph : PhOK new) (hcl : CleanStr o) :
    ¬ o <:+: replaceAll o new s :=
  replaceAllF_removes o new hph hcl s.length s (le_refl _)

theorem replaceAll_reflect (old new s o' : List Char) (hph : PhOK new) (hcl : CleanStr o')
    (h : o' <:+: replaceAll old new s) : o' <:+: s :=
  replaceAllF_infix_reflect old new hph s.length s o' hcl h

/-! ## Placeholders are bracket-delimited and never sensitive -/

theorem phOK_phFor {tag : String} (h : tag ∈ patternTags ∨ tag ∈ entityTags) :
    PhOK (phFor tag) := by
  rcases h with h | h
  · unfold patternTags at h
    simp only [List.mem_cons, List.not_mem_nil, or_false] at h
    rcases h with rfl | rfl | rfl | rfl
    · exact ⟨"REDACTED_CREDIT_CARD".data, by decide, by decide⟩
    · exact ⟨"REDACTED_SSN".data, by decide, by decide⟩
    · exact ⟨"REDACTED_PHONE".data, by decide, by decide⟩
    · exact ⟨"REDACTED_EMAIL".data, by decide, by decide⟩
  · unfold entityTags at h
    simp only [List.mem_cons, List.not_mem_nil, or_false] at h
    rcases h with rfl | rfl
    · exact ⟨"REDACTED_PERSON".data, by decide, by decide⟩
    · exact ⟨"REDACTED_DATE".data, by decide, by decide⟩

/-! ## The pattern pass removes, and never reintroduces, clean substrings -/

theorem foldSteps_preserves (steps : List Entry) (hph : ∀ e ∈ steps, PhOK (phFor e.tag))
    (o : List Char) (hcl : CleanStr o) :
    ∀ t, ¬ o <:+: t → ¬ o <:+: foldSteps steps t := by
  induction steps with
  | nil => intro t h; simpa [foldSteps] using h
  | cons e rest ih =>
    intro t h habs
    have hstep : foldSteps (e :: rest) t =
        foldSteps rest (replaceAll e.original (phFor e.tag) t) := rfl
    rw [hstep] at habs
    have h1 : ¬ o <:+: replaceAll e.original (phFor e.tag) t := by
      intro hx
      exact h (replaceAll_reflect _ _ _ _ (hph e (List.mem_cons_self _ _)) hcl hx)
    exact ih (fun x hx => hph x (List.mem_cons_of_mem _ hx)) _ h1 habs

theorem foldSteps_removes (steps : List Entry) (hph : ∀ e ∈ steps, PhOK (phFor e.tag))
    (hcl : ∀ e ∈ steps, CleanStr e.original) :
    ∀ t, ∀ e ∈ steps, ¬ e.original <:+: foldSteps steps t := by
  induction steps with
  | nil => intro t e he; exact absurd he (List.not_mem_nil _)
  | cons x rest ih =>
    intro t e he
    have hstep : foldSteps (x :: rest) t =
        foldSteps rest (replaceAll x.original (phFor x.tag) t) := rfl
    rcases List.mem_cons.mp he with rfl | he2
    · rw [hstep]
      apply foldSteps_preserves rest (fun y hy => hph y (List.mem_cons_of_mem _ hy))
        e.original (hcl e (List.mem_cons_self _ _))
      exact replaceAll_removes e.original (phFor e.tag) t (hph e (List.mem_cons_self _ _))
        (hcl e (List.mem_cons_self _ _))
    · rw [hstep]
      exact ih (fun y hy => hph y (List.mem_cons_of_mem _ hy))
        (fun y hy => hcl y (List.mem_cons_of_mem _ hy)) _ e he2

/-! ## The entity pass never reintroduces clean substrings -/

theorem nerApply_preserves (o : List Char) (hcl : CleanStr o) :
    ∀ (es : List Ent) (t : List Char), ¬ o <:+: t → ¬ o <:+: nerApply es t := by
  intro es
  induction es with
  | nil => intro t h; simpa [nerApply] using h
  | cons e rest ih =>
    intro t h
    by_cases hk : e.label = ELabel.PERSON ∨ e.label = ELabel.DATE
    · have hstep : nerApply (e :: rest) t =
          nerApply rest (t.take e.s ++ phFor (labelStr e.label) ++ t.drop e.t) := by
        simp only [nerApply, List.foldl_cons, if_pos hk]
      rw [hstep]
      apply ih
      intro hx
      have hphOK : PhOK (phFor (labelStr e.label)) := by
        apply phOK_phFor
        right
        rcases hk with h1 | h1 <;> rw [h1] <;> decide
      rcases hphOK with ⟨mm, hmm, hmchars⟩
      rw [hmm] at hx
      rcases hcl with ⟨hne, hbl, hbr, hsens⟩
      rcases infix_split3 hne hbl hbr hx with h2 | h2 | h2
      · exact h (h2.trans (take_infix_self t e.s))
      · rcases hsens with ⟨ch, hch, hs⟩
        have := hmchars ch (h2.subset hch)
        rw [this] at hs
        exact absurd hs (by decide)
      · exact h (h2.trans (t.drop_suffix e.t).isInfix)
    · have hstep : nerApply (e :: rest) t = nerApply rest t := by
        simp only [nerApply, List.foldl_cons, if_neg hk]
      rw [hstep]
      exact ih t h

/-! ## Soundness of the token matcher -/

theorem countRun_le_length (f : Char → Bool) : ∀ l : List Char, countRun f l ≤ l.length := by
  intro l
  induction l with
  | nil => simp [countRun]
  | cons c rest ih =>
    simp only [countRun, List.length_cons]
    by_cases hc : f c = true
    · rw [if_pos hc]; omega
    · rw [if_neg hc]; omega

theorem countRun_take (f : Char → Bool) :
    ∀ (l : List Char) (k : Nat), k ≤ countRun f l → ∀ c ∈ l.take k, f c = true := by
  intro l
  induction l with
  | nil => intro k _ c hc; simp at hc
  | cons c0 rest ih =>
    intro k hk c hc
    simp only [countRun] at hk
    by_cases hc0 : f c0 = true
    · rw [if_pos hc0] at hk
      cases k with
      | zero => simp at hc
      | succ k' =>
        rw [List.take_succ_cons] at hc
        rcases List.mem_cons.mp hc with rfl | hc2
        · exact hc0
        · exact ih k' (by omega) c hc2
    · rw [if_neg hc0] at hk
      have : k = 0 := by omega
      subst this
      simp at hc

theorem clsCands_bounds {k mn : Nat} {mx : Option Nat} {run : Nat}
    (h : k ∈ clsCands mn mx run) : mn ≤ k ∧ k ≤ run := by
  cases mx with
  | none =>
    simp only [clsCands] at h
    rcases List.mem_map.mp h with ⟨d, hd, rfl⟩
    rw [List.mem_range] at hd
    omega
  | some m =>
    simp only [clsCands] at h
    rcases List.mem_map.mp h with ⟨d, hd, rfl⟩
    rw [List.mem_range] at hd
    have h1 : min m run ≤ run := min_le_right _ _
    omega

theorem matchToks_suffix : ∀ (toks : List Tok) (prev : Option Char) (rest r : List Char),
    matchToks toks prev rest = some r → r <:+ rest := by
  intro toks
  induction toks with
  | nil =>
    intro prev rest r h
    simp only [matchToks, Option.some.injEq] at h
    subst h
    exact List.suffix_refl _
  | cons t ts ih =>
    intro prev rest r h
    cases t with
    | lit c =>
      cases rest with
      | nil => simp [matchToks] at h
      | cons d rest' =>
        simp only [matchToks] at h
        by_cases hd : d = c
        · rw [if_pos hd] at h
          exact (ih _ _ _ h).trans (List.suffix_cons d rest')
        · rw [if_neg hd] at h
          exact absurd h (by simp)
    | wb =>
      simp only [matchToks] at h
      by_cases hw : wbOk prev rest.head? = true
      · rw [if_pos hw] at h
        exact ih _ _ _ h
      · rw [if_neg hw] at h
        exact absurd h (by simp)
    | cls f mn mx =>
      simp only [matchToks] at h
      rcases List.exists_of_findSome?_eq_some h with ⟨k, _, hmk⟩
      exact (ih _ _ _ hmk).trans (List.drop_suffix k rest)

theorem take_sub_append (pre rest2 r : List Char) (h : r.length ≤ rest2.length) :
    (pre ++ rest2).take ((pre ++ rest2).length - r.length) =
      pre ++ rest2.take (rest2.length - r.length) := by
  have h1 : (pre ++ rest2).length - r.length = pre.length + (rest2.length - r.length) := by
    simp only [List.length_append]
    omega
  rw [h1, List.take_add, List.take_left, List.drop_left]

theorem matchToks_chars : ∀ (toks : List Tok) (prev : Option Char) (rest r : List Char),
    matchToks toks prev rest = some r →
    ∀ c ∈ rest.take (rest.length - r.length), tokAllows toks c := by
  intro toks
  induction toks with
  | nil =>
    intro prev rest r h c hc
    simp only [matchToks, Option.some.injEq] at h
    subst h
    simp at hc
  | cons t ts ih =>
    intro prev rest r h c hc
    cases t with
    | wb =>
      simp only [matchToks] at h
      by_cases hw : wbOk prev rest.head? = true
      · rw [if_pos hw] at h
        rcases ih _ _ _ h c hc with ⟨t2, ht2, hall⟩
        exact ⟨t2, List.mem_cons_of_mem _ ht2, hall⟩
      · rw [if_neg hw] at h
        exact absurd h (by simp)
    | lit d0 =>
      cases rest with
      | nil => simp [matchToks] at h
      | cons d rest' =>
        simp only [matchToks] at h
        by_cases hd : d = d0
        · rw [if_pos hd] at h
          have hsuf := matchToks_suffix ts (some d) rest' r h
          have hrlen : r.length ≤ rest'.length := hsuf.length_le
          have hdec : (d :: rest').take ((d :: rest').length - r.length) =
              d :: rest'.take (rest'.length - r.length) := by
            have he : (d :: rest').length - r.length = (rest'.length - r.length) + 1 := by
              simp only [List.length_cons]
              omega
            rw [he, List.take_succ_cons]
          rw [hdec] at hc
          rcases List.mem_cons.mp hc with rfl | hc2
          · exact ⟨Tok.lit d0, List.mem_cons_self _ _, hd⟩
          · rcases ih _ _ _ h c hc2 with ⟨t2, ht2, hall⟩
            exact ⟨t2, List.mem_cons_of_mem _ ht2, hall⟩
        · rw [if_neg hd] at h
          exact absurd h (by simp)
    | cls f mn mx =>
      simp only [matchToks] at h
      rcases List.exists_of_findSome?_eq_some h with ⟨k, hkmem, hmk⟩
      rcases clsCands_bounds hkmem with ⟨_, hkrun⟩
      have hsuf := matchToks_suffix ts _ _ r hmk
      have hrlen : r.length ≤ (rest.drop k).length := hsuf.length_le
      have hdec : rest.take (rest.length - r.length) =
          rest.take k ++ (rest.drop k).take ((rest.drop k).length - r.length) := by
        conv_lhs => rw [show rest = rest.take k ++ rest.drop k from
          (List.take_append_drop k rest).symm]
        rw [take_sub_append _ _ _ hrlen]
      rw [hdec] at hc
      rcases List.mem_append.mp hc with hc1 | hc2
      · have hfc : f c = true :=
          countRun_take f rest k (le_trans hkrun (le_refl _)) c hc1
        exact ⟨Tok.cls f mn mx, List.mem_cons_self _ _, hfc⟩
      · rcases ih _ _ _ hmk c hc2 with ⟨t2, ht2, hall⟩
        exact ⟨t2, List.mem_cons_of_mem _ ht2, hall⟩

theorem matchToks_mand (P : Char → Bool) :
    ∀ (toks : List Tok) (prev : Option Char) (rest r : List Char),
    MandTok P toks → matchToks toks prev rest = some r →
    ∃ c ∈ rest.take (rest.length - r.length), P c = true := by
  intro toks
  induction toks with
  | nil =>
    intro prev rest r hmand _
    rcases hmand with ⟨t0, ht0, _⟩
    exact absurd ht0 (List.not_mem_nil _)
  | cons t ts ih =>
    intro prev rest r hmand h
    rcases hmand with ⟨t0, ht0, hprop⟩
    cases t with
    | wb =>
      simp only [matchToks] at h
      by_cases hw : wbOk prev rest.head? = true
      · rw [if_pos hw] at h
        rcases List.mem_cons.mp ht0 with rfl | ht0t
        · exact hprop.elim
        · exact ih prev rest r ⟨t0, ht0t, hprop⟩ h
      · rw [if_neg hw] at h
        exact absurd h (by simp)
    | lit d0 =>
      cases rest with
      | nil => simp [matchToks] at h
      | cons d rest' =>
        simp only [matchToks] at h
        by_cases hd : d = d0
        · rw [if_pos hd] at h
          have hsuf := matchToks_suffix ts (some d) rest' r h
          have hrlen : r.length ≤ rest'.length := hsuf.length_le
          have hdec : (d :: rest').take ((d :: rest').length - r.length) =
              d :: rest'.take (rest'.length - r.length) := by
            have he : (d :: rest').length - r.length = (rest'.length - r.length) + 1 := by
              simp only [List.length_cons]
              omega
            rw [he, List.take_succ_cons]
          rw [hdec]
          rcases List.mem_cons.mp ht0 with rfl | ht0t
          · refine ⟨d, List.mem_cons_self _ _, ?_⟩
            rw [hd]
            exact hprop
          · rcases ih (some d) rest' r ⟨t0, ht0t, hprop⟩ h with ⟨c, hcm, hcp⟩
            exact ⟨c, List.mem_cons_of_mem _ hcm, hcp⟩
        · rw [if_neg hd] at h
          exact absurd h (by simp)
    | cls f mn mx =>
      simp only [matchToks] at h
      rcases List.exists_of_findSome?_eq_some h with ⟨k, hkmem, hmk⟩
      rcases clsCands_bounds hkmem with ⟨hmnk, hkrun⟩
      have hsuf := matchToks_suffix ts _ _ r hmk
      have hrlen : r.length ≤ (rest.drop k).length := hsuf.length_le
      have hdec : rest.take (rest.length - r.length) =
          rest.take k ++ (rest.drop k).take ((rest.drop k).length - r.length) := by
        conv_lhs => rw [show rest = rest.take k ++ rest.drop k from
          (List.take_append_drop k rest).symm]
        rw [take_sub_append _ _ _ hrlen]
      rw [hdec]
      rcases List.mem_cons.mp ht0 with rfl | ht0t
      · rcases hprop with ⟨hmn1, hfP⟩
        have hkrest : k ≤ rest.length := le_trans hkrun (countRun_le_length f rest)
        have hk1 : 1 ≤ k := le_trans hmn1 hmnk
        cases rest with
        | nil => simp at hkrest; omega
        | cons c0 rest'' =>
          have hc0mem : c0 ∈ (c0 :: rest'').take k := by
            rcases Nat.exists_eq_succ_of_ne_zero (by omega : k ≠ 0) with ⟨k', hk'⟩
            rw [hk', List.take_succ_cons]
            exact List.mem_cons_self _ _
          have hfc0 : f c0 = true := countRun_take f _ k hkrun c0 hc0mem
          exact ⟨c0, List.mem_append_left _ hc0mem, hfP c0 hfc0⟩
      · rcases ih _ _ _ ⟨t0, ht0t, hprop⟩ hmk with ⟨c, hcm, hcp⟩
        exact ⟨c, List.mem_append_right _ hcm, hcp⟩

theorem finditerGo_sound (toks : List Tok) (text : List Char) :
    ∀ (fuel i : Nat), ∀ m ∈ finditerGo toks text fuel i,
      m.s < m.t ∧ m.t ≤ text.length ∧
      (∀ c ∈ sliceL text m.s m.t, tokAllows toks c) ∧
      (∀ P : Char → Bool, MandTok P toks → ∃ c ∈ sliceL text m.s m.t, P c = true) := by
  intro fuel
  induction fuel with
  | zero => intro i m hm; simp [finditerGo] at hm
  | succ fuel ih =>
    intro i m hm
    simp only [finditerGo] at hm
    by_cases hgt : i > text.length
    · rw [if_pos hgt] at hm
      simp at hm
    · rw [if_neg hgt] at hm
      cases hmt : matchToks toks (if i = 0 then none else text[i-1]?) (text.drop i) with
      | none =>
        rw [hmt] at hm
        exact ih (i+1) m hm
      | some r =>
        rw [hmt] at hm
        simp only at hm
        by_cases h0 : (text.drop i).length - r.length = 0
        · rw [if_pos h0] at hm
          exact ih (i+1) m hm
        · rw [if_neg h0] at hm
          rcases List.mem_cons.mp hm with rfl | hm2
          · have hdl : (text.drop i).length = text.length - i := by
              simp
            have hslice : sliceL text i (i + ((text.drop i).length - r.length)) =
                (text.drop i).take ((text.drop i).length - r.length) := by
              unfold sliceL
              congr 1
              omega
            refine ⟨?_, ?_, ?_, ?_⟩
            · show i < i + ((text.drop i).length - r.length)
              omega
            · show i + ((text.drop i).length - r.length) ≤ text.length
              omega
            · show ∀ c ∈ sliceL text i (i + ((text.drop i).length - r.length)), tokAllows toks c
              intro c hc
              rw [hslice] at hc
              exact matchToks_chars toks _ _ r hmt c hc
            · show ∀ P : Char → Bool, MandTok P toks →
                ∃ c ∈ sliceL text i (i + ((text.drop i).length - r.length)), P c = true
              intro P hP
              rw [hslice]
              exact matchToks_mand P toks _ _ r hP hmt
          · exact ih _ m hm2

/-! ## The four patterns only match clean substrings -/

theorem patterns_no_brackets {tp : String × List Tok} (htp : tp ∈ patterns) :
    ∀ c, tokAllows tp.2 c → c ≠ '[' ∧ c ≠ ']' := by
  unfold patterns at htp
  simp only [List.mem_cons, List.not_mem_nil, or_false] at htp
  rcases htp with rfl | rfl | rfl | rfl <;>
  · intro c hall
    rcases hall with ⟨t, ht, hmt⟩
    simp only [ccToks, ssnToks, phoneToks, emailToks, List.mem_cons,
      List.not_mem_nil, or_false] at ht
    rcases ht with rfl | rfl | rfl | rfl | rfl | rfl | rfl | rfl | rfl <;>
      first
        | exact hmt.elim
        | (subst hmt; exact ⟨by decide, by decide⟩)
        | (refine ⟨fun hceq => ?_, fun hceq => ?_⟩ <;> (subst hceq; revert hmt; decide))

theorem patterns_sensitive {tp : String × List Tok} (htp : tp ∈ patterns) :
    MandTok sensitiveC tp.2 := by
  have hdig : ∀ c : Char, isDigitC c = true → sensitiveC c = true := by
    intro c hc
    simp only [sensitiveC, Bool.or_eq_true]
    exact Or.inl hc
  unfold patterns at htp
  simp only [List.mem_cons, List.not_mem_nil, or_false] at htp
  rcases htp with rfl | rfl | rfl | rfl
  · exact ⟨Tok.cls isDigitC 4 (some 4),
      List.mem_cons_of_mem _ (List.mem_cons_self _ _), by omega, hdig⟩
  · exact ⟨Tok.cls isDigitC 3 (some 3),
      List.mem_cons_of_mem _ (List.mem_cons_self _ _), by omega, hdig⟩
  · exact ⟨Tok.cls isDigitC 3 (some 3),
      List.mem_cons_of_mem _ (List.mem_cons_self _ _), by omega, hdig⟩
  · exact ⟨Tok.lit '@',
      List.mem_cons_of_mem _ (List.mem_cons_of_mem _ (List.mem_cons_self _ _)), by decide⟩

theorem patSteps_clean (text : List Char) : ∀ e ∈ patSteps text, CleanStr e.original := by
  intro e he
  unfold patSteps at he
  rw [List.mem_flatten] at he
  rcases he with ⟨block, hb, heb⟩
  rw [List.mem_map] at hb
  rcases hb with ⟨tp, htp, rfl⟩
  unfold catEntries at heb
  rw [List.mem_map] at heb
  rcases heb with ⟨m, hm, rfl⟩
  rcases finditerGo_sound tp.2 text (text.length + 1) 0 m hm with ⟨hst, htl, hchars, hmand⟩
  refine ⟨?_, ?_, ?_, ?_⟩
  · show sliceL text m.s m.t ≠ []
    have hlen : (sliceL text m.s m.t).length = min (m.t - m.s) (text.length - m.s) := by
      simp [sliceL]
    intro hnil
    rw [hnil] at hlen
    simp only [List.length_nil] at hlen
    omega
  · show '[' ∉ sliceL text m.s m.t
    intro hmem
    exact absurd rfl (patterns_no_brackets htp '[' (hchars '[' hmem)).1
  · show ']' ∉ sliceL text m.s m.t
    intro hmem
    exact absurd rfl (patterns_no_brackets htp ']' (hchars ']' hmem)).2
  · exact hmand sensitiveC (patterns_sensitive htp)

/-! ## Claim C2: what survives the two-pass redaction -/

/-- C2 amended: every substring matched by the pattern detector is
absent from the pattern-pass output and from the final two-pass output
(value-based replacement removes every occurrence, and neither later
pattern replacements nor entity splices can reintroduce one), and
re-scanning the pattern-pass output with the same patterns never finds a
match whose text equals any originally matched substring.  (Entity spans
are only removed at their detected offsets; an identical substring of an
entity elsewhere in the text may survive, as the counterexample shows.) -/
theorem c2_redaction_invariant (text : List Char) (nlpEnts : List Char → List Ent) :
    (∀ e ∈ (redact_pii_regex text).2, ¬ e.original <:+: (redact_pii_regex text).1) ∧
    (∀ e ∈ (redact_pii_regex text).2, ¬ e.original <:+: (redact_pii nlpEnts text).1) ∧
    (∀ tp ∈ patterns, ∀ m ∈ finditer tp.2 (redact_pii_regex text).1,
      ∀ e ∈ (redact_pii_regex text).2,
        sliceL (redact_pii_regex text).1 m.s m.t ≠ e.original) := by
  have hreq := redact_pii_regex_eq text
  have hledger : (redact_pii_regex text).2 = patSteps text := by rw [hreq]
  have htext : (redact_pii_regex text).1 = foldSteps (patSteps text) text := by rw [hreq]
  have hph : ∀ e ∈ patSteps text, PhOK (phFor e.tag) :=
    fun e he => phOK_phFor (Or.inl (patSteps_tags text e he))
  have hclean := patSteps_clean text
  have part1 : ∀ e ∈ (redact_pii_regex text).2, ¬ e.original <:+: (redact_pii_regex text).1 := by
    intro e he
    rw [hledger] at he
    rw [htext]
    exact foldSteps_removes (patSteps text) hph hclean text e he
  refine ⟨part1, ?_, ?_⟩
  · intro e he habs
    have hfinal : (redact_pii nlpEnts text).1 =
        nerApply (sortByStartDesc (nlpEnts (redact_pii_regex text).1))
          (redact_pii_regex text).1 := by
      show (redact_pii_ner (nlpEnts (redact_pii_regex text).1) (redact_pii_regex text).1).1 = _
      rw [redact_pii_ner_eq]
    rw [hfinal] at habs
    have hcl : CleanStr e.original := by
      apply hclean
      rw [← hledger]
      exact he
    exact nerApply_preserves e.original hcl _ _ (part1 e he) habs
  · intro tp _ m _ e he heq
    have hinf : sliceL (redact_pii_regex text).1 m.s m.t <:+: (redact_pii_regex text).1 := by
      show ((redact_pii_regex text).1.drop m.s).take (m.t - m.s) <:+: (redact_pii_regex text).1
      exact slice_isInfix _ m.s (m.t - m.s)
    rw [heq] at hinf
    exact part1 e he hinf

/-- C2 counterexample: the claim as stated fails for entity spans.  With
the text `"John x John"` (no pattern matches) and the entity model
tagging only the first occurrence of "John" as PERSON, the detector
matched the substring "John" against that snapshot, yet the final text
`"[REDACTED_PERSON] x John"` still literally contains "John". -/
theorem c2_counterexample :
    (⟨"PERSON", "John".data, 0, 4⟩ : Entry) ∈
      (redact_pii (fun _ => [⟨ELabel.PERSON, 0, 4⟩]) "John x John".data).2 ∧
    "John".data <:+: (redact_pii (fun _ => [⟨ELabel.PERSON, 0, 4⟩]) "John x John".data).1 := by
  exact ⟨by decide, by decide⟩

/-- C2 witness: the amended conclusions at the concrete input
`"555-123-4567@ab.cd"` — the PHONE match's text occurs neither in the
pattern-pass output nor in the final output. -/
theorem c2_witness :
    ¬ ((⟨"PHONE", "555-123-4567".data, 0, 12⟩ : Entry).original <:+:
        (redact_pii_regex "555-123-4567@ab.cd".data).1) ∧
    ¬ ((⟨"PHONE", "555-123-4567".data, 0, 12⟩ : Entry).original <:+:
        (redact_pii (fun _ => []) "555-123-4567@ab.cd".data).1) :=
  ⟨(c2_redaction_invariant "555-123-4567@ab.cd".data (fun _ => [])).1
      ⟨"PHONE", "555-123-4567".data, 0, 12⟩ (by decide),
   (c2_redaction_invariant "555-123-4567@ab.cd".data (fun _ => [])).2.1
      ⟨"PHONE", "555-123-4567".data, 0, 12⟩ (by decide)⟩
